import Mathlib

/-!
Verification development for the pixiv-X-local-viewer server (`server.py`).

The development shallowly embeds the two engines of the program:

* the classification/ingestion pipeline (`scan_worker`, `run_scan`), and
* the unified stream retrieval engine (`fetch_ids` / `build_query` inside
  `get_stream`), together with the small `toggle_like` endpoint and the
  process-wide scan flag protocol.

Effectful primitives of the source (file modification times, JSON sidecar
loading, the md5 hex digest) are modelled as components of an explicit
environment record `Env`; everything else is translated directly from the
Python source.  The regular expressions of the source are small enough
that their exact matching semantics on the relevant inputs is given by
hand-rolled scanners, documented at each definition.
-/

namespace PixivViewer

/-! ## String and filename utilities -/

/-- Character class of Python `\d` restricted to ASCII digits (the
filenames handled by the scanner are ASCII). -/
def isDigitC (c : Char) : Bool := c.isDigit

/-- Characters matched by the `[\s\-_]` class of the author-name pattern. -/
def isSepC (c : Char) : Bool := c = '-' || c = '_' || c.isWhitespace

/-- Lowercasing by mapping `Char.toLower` over the characters (the
kernel-reducible equivalent of `str.lower()`). -/
def toLowerStr (s : String) : String := String.mk (s.toList.map Char.toLower)

/-- Suffix test on the character lists (`str.endswith`). -/
def strEndsWith (s suffix : String) : Bool :=
  List.isSuffixOf suffix.toList s.toList

/-- Prefix test on the character lists (`str.startswith`). -/
def strStartsWith (s pre : String) : Bool :=
  List.isPrefixOf pre.toList s.toList

/-- Split of a character list at a separator character (`str.split`). -/
def splitOnChar (sep : Char) : List Char → List (List Char)
  | [] => [[]]
  | c :: cs =>
    match splitOnChar sep cs with
    | [] => [[c]]
    | g :: gs => if c = sep then [] :: g :: gs else (c :: g) :: gs

/-- First `n` characters of a string (`s[:n]`). -/
def strTake (s : String) (n : Nat) : String := String.mk (s.toList.take n)

/-- Model of `os.path.join(root, f)` with a `/` separator. -/
def joinPath (root f : String) : String := root ++ "/" ++ f

/-- Model of `os.path.basename(root)` with a `/` separator. -/
def baseName (root : String) : String :=
  match (splitOnChar '/' root.toList).getLast? with
  | some b => String.mk b
  | none => root

/-- Model of Python `str.strip()` (strip whitespace from both ends). -/
def pyStrip (s : String) : String :=
  String.mk (((s.toList.dropWhile Char.isWhitespace).reverse.dropWhile
    Char.isWhitespace).reverse)

/-- Lowercased-name media extension test from the classifier
(`low.endswith(('.jpg', '.jpeg', '.png', '.gif', '.mp4', '.webm'))`). -/
def isMediaExt (f : String) : Bool :=
  let low := toLowerStr f
  strEndsWith low ".jpg" || strEndsWith low ".jpeg" || strEndsWith low ".png" ||
  strEndsWith low ".gif" || strEndsWith low ".mp4" || strEndsWith low ".webm"

/-- Lowercased-name JSON sidecar test (`low.endswith('.json')`). -/
def isJsonExt (f : String) : Bool := strEndsWith (toLowerStr f) ".json"

/-- Media kind assignment used at all three classification sites:
`'video' if mf.lower().endswith(('.mp4', '.webm')) else 'image'`. -/
def mediaKind (f : String) : String :=
  if strEndsWith (toLowerStr f) ".mp4" || strEndsWith (toLowerStr f) ".webm"
  then "video" else "image"

/-- Numeric value of a list of ASCII digit characters (Python `int`). -/
def natOfDigits (ds : List Char) : Nat :=
  ds.foldl (fun n c => n * 10 + (c.toNat - 48)) 0

/-! ## Filename pattern models

The four regular expressions of the classifier.  Each scanner implements
the leftmost-match semantics of `re.search` for its pattern; because no
pattern's digit class overlaps its delimiter characters, backtracking
never produces a shorter match than the maximal digit run, so the
captured group is always a maximal digit run. -/

/-- Scanner for `re.findall(r'(\d{14,})', jf)[0]`: the first maximal run
of at least 14 consecutive digits in the string, if any.  `cur` is the
(reversed) digit run currently being read. -/
def firstLongDigitRun (cur : List Char) : List Char → Option String
  | [] => if 14 ≤ cur.length then some (String.mk cur.reverse) else none
  | c :: cs =>
    if isDigitC c then firstLongDigitRun (c :: cur) cs
    else if 14 ≤ cur.length then some (String.mk cur.reverse)
    else firstLongDigitRun [] cs

/-- Post id extraction from a JSON sidecar filename
(`re.findall(r'(\d{14,})', jf)`, first element). -/
def extractTid (jf : String) : Option String :=
  firstLongDigitRun [] jf.toList

/-- Scanner for `tweet_id_pattern = re.compile(r'_(\d{14,})(_|\.)')`
applied with `.search`: the first position holding an underscore that is
followed by a maximal run of at least 14 digits which is in turn followed
by an underscore or a dot; the captured group is that digit run. -/
def tweetCaptureAux : List Char → Option String
  | [] => none
  | c :: rest =>
    if c = '_' then
      let run := rest.takeWhile isDigitC
      let after := rest.dropWhile isDigitC
      if 14 ≤ run.length && (after.head? = some '_' || after.head? = some '.')
      then some (String.mk run)
      else tweetCaptureAux rest
    else tweetCaptureAux rest

/-- Captured tweet id of a media filename, per `tweet_id_pattern.search`. -/
def tweetCapture (f : String) : Option String :=
  tweetCaptureAux f.toList

/-- Scanner for `pixiv_file_pattern = re.compile(r'^(\d{5,})(?:_p(\d+))?')`
applied with `.search` (anchored at the start by `^`): a leading run of at
least 5 digits is the work id, an optional `_p<digits>` suffix gives the
raw page number. -/
def pixivCapture (f : String) : Option (String × Option Nat) :=
  let cs := f.toList
  let run := cs.takeWhile isDigitC
  if run.length < 5 then none
  else
    let rest := cs.dropWhile isDigitC
    match rest with
    | '_' :: 'p' :: rest2 =>
      let ds := rest2.takeWhile isDigitC
      if ds.isEmpty then some (String.mk run, none)
      else some (String.mk run, some (natOfDigits ds))
    | _ => some (String.mk run, none)

/-- Scanner for `re.search(r'[\-_](\d{3,})$', folder_name)`: the folder
basename must end with a separator (`-` or `_`) followed by at least 3
digits; the captured group is the trailing digit run. -/
def folderMatch (folder : String) : Option String :=
  let rcs := folder.toList.reverse
  let run := rcs.takeWhile isDigitC
  if 3 ≤ run.length then
    match rcs.dropWhile isDigitC with
    | c :: _ => if c = '-' || c = '_' then some (String.mk run.reverse) else none
    | [] => none
  else none

/-- Tail test of `^(.*?)[\s\-_]*(\d+)$` after the lazy prefix: a possibly
empty run of separator characters followed by a nonempty all-digit run
reaching the end of the string. -/
def authorTail (cs : List Char) : Bool :=
  let rest := cs.dropWhile isSepC
  !rest.isEmpty && rest.all isDigitC

/-- Lazy group `(.*?)` of `author_match`: the shortest prefix whose
complement matches `[\s\-_]*(\d+)$`.  `acc` is the (reversed) prefix
consumed so far. -/
def authorGroup1Aux (acc : List Char) : List Char → Option (List Char)
  | [] => none
  | c :: cs =>
    if authorTail (c :: cs) then some acc.reverse
    else authorGroup1Aux (c :: acc) cs

/-- Author display name derivation (lines 175-176 of the source):
`author_match.group(1).strip()` when nonempty, else the folder name. -/
def authorNameOf (folder : String) : String :=
  match authorGroup1Aux [] folder.toList with
  | some g1 =>
    let s := pyStrip (String.mk g1)
    if s = "" then folder else s
  | none => folder

end PixivViewer

namespace PixivViewer

/-! ## Data model

One structure per table of `init_db`, with the source's column names. -/

/-- Row of the `pixiv_works` table. -/
structure PixivWork where
  id : String
  title : String
  author : String
  timestamp : Int
  total_pages : Nat
  is_liked : Nat
  folder_name : String
  file_mtime : Int
deriving DecidableEq, Repr

/-- Row of the `pixiv_pages` table. -/
structure PixivPage where
  work_id : String
  page_num : Nat
  file_path : String
  media_type : String
deriving DecidableEq, Repr

/-- Row of the `tweets` table. -/
structure Tweet where
  id : String
  timestamp : Int
  user_name : String
  text : String
  json_path : String
  tweet_url : String
  avatar_url : String
  folder_name : String
  file_mtime : Int
  is_liked : Nat
deriving DecidableEq, Repr

/-- Row of the `tweet_media` table. -/
structure TweetMedia where
  tweet_id : String
  file_path : String
  media_type : String
deriving DecidableEq, Repr

/-- Row of the `other_works` table. -/
structure OtherWork where
  id : String
  filename : String
  folder_name : String
  file_path : String
  media_type : String
  file_mtime : Int
  is_liked : Nat
deriving DecidableEq, Repr

/-- The SQLite database: the five tables, each a list of rows in
insertion order. -/
@[ext]
structure Store where
  pixiv_works : List PixivWork
  pixiv_pages : List PixivPage
  tweets : List Tweet
  tweet_media : List TweetMedia
  other_works : List OtherWork
deriving DecidableEq, Repr

/-- The empty database produced by `init_db` on a fresh file. -/
def emptyStore : Store := ⟨[], [], [], [], []⟩

/-! ## Environment

Pure models of the effectful primitives used by the classifier. -/

/-- Fields read from a tweet JSON sidecar after the fallback chains of
lines 154-161 of the source (`timestamp`/`saved_at`/0 coerced to int,
`user_name`/`user`/'Unknown', `text`/'', `avatar_url`/`user_icon`/'').
The canonical URL fallback depends on the tweet id and is applied in the
worker itself. -/
structure SidecarFields where
  ts : Int
  user : String
  text : String
  url : Option String
  avatar : String
deriving DecidableEq, Repr

/-- Environment of a scan pass: file modification times in milliseconds
(`int(os.path.getmtime(p) * 1000)`), JSON sidecar loading (`none` models
any open/parse failure, which the source swallows with `continue`), and
the md5 hex digest used for synthetic identifiers. -/
structure Env where
  mtime : String → Int
  loadJson : String → Option SidecarFields
  md5hex : String → String

/-! ## Classifier worker (`scan_worker`, lines 103-228) -/

/-- A new tweet candidate together with its media rows, as buffered by
the worker (`tweet_buffer` entries). -/
structure TweetEntry where
  row : Tweet
  media : List TweetMedia
deriving DecidableEq, Repr

/-- In-progress page bucket of one artwork id (`pixiv_buffer[wid]`). The
pages carry `(p_num, file_path, media_type)` triples. -/
structure WorkBucket where
  title : String
  author : String
  timestamp : Int
  folder : String
  pages : List (Nat × String × String)
deriving DecidableEq, Repr

/-- Result of one worker: new tweets with media, the artwork bucket map
in insertion order, and new unclassified candidates. -/
structure WorkerOut where
  tweet_buffer : List TweetEntry
  pixiv_buffer : List (String × WorkBucket)
  other_buffer : List OtherWork
deriving DecidableEq, Repr

/-- Non-hidden files of the directory (`[f for f in files if not
f.startswith('.')]`). -/
def workerFiles (files0 : List String) : List String :=
  files0.filter (fun f => !strStartsWith f ".")

/-- JSON sidecars among the non-hidden files. -/
def workerJsonFiles (files0 : List String) : List String :=
  (workerFiles files0).filter isJsonExt

/-- Media files among the non-hidden files (the `elif` arm: not a JSON
sidecar, and carrying a media extension). -/
def workerMediaFiles (files0 : List String) : List String :=
  (workerFiles files0).filter (fun f => !isJsonExt f && isMediaExt f)

/-- Media files grouped under a captured tweet id
(`media_map_for_tweets[tid]`, in `media_files` order). -/
def mediaMapFor (media_files : List String) (tid : String) : List String :=
  media_files.filter (fun f => tweetCapture f == some tid)

/-- One iteration of the tweet sidecar loop (lines 136-171).  The state
is the pair of the tweet buffer and the consumed-media set (a list used
only through membership). -/
def tweetStep (env : Env) (root folder_name : String)
    (existing_tweets : List String) (media_files : List String)
    (st : List TweetEntry × List String) (jf : String) :
    List TweetEntry × List String :=
  match extractTid jf with
  | none => st
  | some tid =>
    let mm := mediaMapFor media_files tid
    if tid ∈ existing_tweets then (st.1, st.2 ++ mm)
    else
      match env.loadJson (joinPath root jf) with
      | none => st
      | some d =>
        let full_path := joinPath root jf
        let mtime := env.mtime full_path
        let t_url := d.url.getD
          ("https://twitter.com/" ++ d.user ++ "/status/" ++ tid)
        let t_media := mm.map (fun mf =>
          TweetMedia.mk tid (joinPath root mf) (mediaKind mf))
        (st.1 ++ [⟨⟨tid, d.ts, d.user, d.text, full_path, t_url, d.avatar,
            folder_name, mtime, 0⟩, t_media⟩],
         st.2 ++ mm)

/-- The tweet sidecar loop over all JSON files. -/
def tweetPhase (env : Env) (root folder_name : String)
    (existing_tweets : List String) (media_files json_files : List String) :
    List TweetEntry × List String :=
  json_files.foldl (tweetStep env root folder_name existing_tweets media_files)
    ([], [])

/-- Lookup in the insertion-ordered bucket map. -/
def lookupBucket : List (String × WorkBucket) → String → Option WorkBucket
  | [], _ => none
  | (k, v) :: rest, wid => if k = wid then some v else lookupBucket rest wid

/-- In-place update (or append) in the insertion-ordered bucket map,
modelling assignment to `pixiv_buffer[wid]`. -/
def upsertBucket : List (String × WorkBucket) → String → WorkBucket →
    List (String × WorkBucket)
  | [], wid, b => [(wid, b)]
  | (k, v) :: rest, wid, b =>
    if k = wid then (wid, b) :: rest else (k, v) :: upsertBucket rest wid b

/-- Work id and raw page number resolved for a media file in an artwork
folder (lines 181-189): the `^(\d{5,})(?:_p(\d+))?` capture when it
matches, else a synthetic id derived from the author id and the first 8
hex characters of the md5 of the bare filename. -/
def widOf (env : Env) (pixiv_author_id : String) (mf : String) :
    String × Nat :=
  match pixivCapture mf with
  | some (w, pg) => (w, pg.getD 0)
  | none =>
    ("folder_" ++ pixiv_author_id ++ "_" ++ strTake (env.md5hex mf) 8, 0)

/-- One iteration of the artwork loop (lines 178-209). -/
def pixivStep (env : Env) (root folder_name author_name pixiv_author_id : String)
    (existing_pixiv : List String)
    (st : List (String × WorkBucket) × List String) (mf : String) :
    List (String × WorkBucket) × List String :=
  if mf ∈ st.2 then st
  else
    let wp := widOf env pixiv_author_id mf
    let wid := wp.1
    let p_num := wp.2
    if wid ∈ existing_pixiv then (st.1, st.2 ++ [mf])
    else
      let full_path := joinPath root mf
      let mtime := env.mtime full_path
      let m_type := mediaKind mf
      let b0 := match lookupBucket st.1 wid with
        | some b => b
        | none => ⟨mf, author_name, mtime, folder_name, []⟩
      let ts := if b0.timestamp < mtime then mtime else b0.timestamp
      let b1 : WorkBucket :=
        ⟨b0.title, b0.author, ts, b0.folder,
         b0.pages ++ [(p_num, full_path, m_type)]⟩
      (upsertBucket st.1 wid b1, st.2 ++ [mf])

/-- The artwork loop over all media files (run only in artwork folders). -/
def pixivPhase (env : Env) (root folder_name author_name pixiv_author_id : String)
    (existing_pixiv : List String) (media_files : List String)
    (used : List String) : List (String × WorkBucket) × List String :=
  media_files.foldl
    (pixivStep env root folder_name author_name pixiv_author_id existing_pixiv)
    ([], used)

/-- One iteration of the unclassified fallback loop (lines 212-223). -/
def otherStep (env : Env) (root folder_name : String)
    (existing_others : List String) (used : List String)
    (buf : List OtherWork) (mf : String) : List OtherWork :=
  if mf ∈ used then buf
  else
    let full_path := joinPath root mf
    let file_id := env.md5hex full_path
    if file_id ∈ existing_others then buf
    else
      buf ++ [⟨file_id, mf, folder_name, full_path, mediaKind mf,
        env.mtime full_path, 0⟩]

/-- The unclassified fallback loop over all media files. -/
def otherPhase (env : Env) (root folder_name : String)
    (existing_others : List String) (media_files : List String)
    (used : List String) : List OtherWork :=
  media_files.foldl (otherStep env root folder_name existing_others used) []

/-- The classifier worker (`scan_worker`): one directory's file list plus
the three existing-id snapshots, producing candidate records for that
directory only. -/
def scan_worker (env : Env) (root : String) (files0 : List String)
    (existing_pixiv existing_tweets existing_others : List String) :
    WorkerOut :=
  let folder_name := baseName root
  let pixiv_folder_match := folderMatch folder_name
  let is_pixiv_folder := pixiv_folder_match.isSome
  let pixiv_author_id := pixiv_folder_match.getD ""
  let media_files := workerMediaFiles files0
  let json_files := workerJsonFiles files0
  let tw := tweetPhase env root folder_name existing_tweets media_files json_files
  let px :=
    if is_pixiv_folder then
      pixivPhase env root folder_name (authorNameOf folder_name)
        pixiv_author_id existing_pixiv media_files tw.2
    else ([], tw.2)
  let ob := otherPhase env root folder_name existing_others media_files px.2
  ⟨tw.1, px.1, ob⟩

end PixivViewer

namespace PixivViewer

/-! ## Scan orchestrator (`run_scan`, lines 230-337)

The thread pool and write batching are abstracted to a sequential fold
over the per-directory tasks: `as_completed` delivers worker results in
an arbitrary order, and the 200-row batch flushes only split the same
`INSERT OR IGNORE` sequence, so the final table contents are those of
inserting every buffered row in aggregation order. -/

/-- Model of `INSERT OR IGNORE` into a table whose primary key is
computed by `key`: the row is dropped when its key is already present,
else appended. -/
def insertIgnoreBy {α : Type} (key : α → String) (l : List α) (x : α) :
    List α :=
  if key x ∈ l.map key then l else l ++ [x]

/-- Ascending comparison on raw page numbers for the page sort
(`data["pages"].sort(key=lambda x: x[0])`, a stable sort). -/
def pageLe (a b : Nat × String × String) : Prop := a.1 ≤ b.1

instance : DecidableRel pageLe := fun a b => Nat.decLe a.1 b.1

instance : IsTotal (Nat × String × String) pageLe :=
  ⟨fun a b => Nat.le_total a.1 b.1⟩

instance : IsTrans (Nat × String × String) pageLe :=
  ⟨fun _ _ _ h h' => Nat.le_trans h h'⟩

/-- Finalization of one artwork bucket (lines 278-281): pages are stably
sorted by raw page number and renumbered to a dense 0-based sequence. -/
def finalizePages (wid : String) (pages : List (Nat × String × String)) :
    List PixivPage :=
  ((List.insertionSort pageLe pages).enum).map
    (fun ip => ⟨wid, ip.1, ip.2.2.1, ip.2.2.2⟩)

/-- Insertion of one buffered tweet with its media (lines 290-291 and
310-311): `INSERT OR IGNORE` on the tweet row, unconditional append of
the media rows (no uniqueness constraint on `tweet_media`). -/
def tweetInsert (st : Store) (e : TweetEntry) : Store :=
  { st with
    tweets := insertIgnoreBy Tweet.id st.tweets e.row,
    tweet_media := st.tweet_media ++ e.media }

/-- The `pixiv_works` row built from one finalized bucket (line 282). -/
def workRow (wb : String × WorkBucket) : PixivWork :=
  ⟨wb.1, wb.2.title, wb.2.author, wb.2.timestamp,
   (finalizePages wb.1 wb.2.pages).length, 0, wb.2.folder, wb.2.timestamp⟩

/-- Insertion of one finalized artwork bucket (lines 277-284, 295-296):
`INSERT OR IGNORE` on the work row, unconditional append of the pages. -/
def pixivInsert (st : Store) (wb : String × WorkBucket) : Store :=
  { st with
    pixiv_works := insertIgnoreBy PixivWork.id st.pixiv_works (workRow wb),
    pixiv_pages := st.pixiv_pages ++ finalizePages wb.1 wb.2.pages }

/-- Insertion of one unclassified candidate (lines 300, 316). -/
def otherInsert (st : Store) (o : OtherWork) : Store :=
  { st with other_works := insertIgnoreBy OtherWork.id st.other_works o }

/-- Aggregation of one worker result into the store (lines 272-316):
tweets and artwork works go through `INSERT OR IGNORE` on their id
column; `tweet_media` and `pixiv_pages` have no uniqueness constraint and
are appended unconditionally. -/
def applyWorker (acc : Store) (out : WorkerOut) : Store :=
  out.other_buffer.foldl otherInsert
    (out.pixiv_buffer.foldl pixivInsert
      (out.tweet_buffer.foldl tweetInsert acc))

/-- Survival predicate of the reconciliation `DELETE` (lines 321-325): a
row survives iff its file path appears in neither `pixiv_pages` nor
`tweet_media`. -/
def reconPred (s : Store) (o : OtherWork) : Bool :=
  !(s.pixiv_pages.any (fun p => p.file_path == o.file_path)) &&
  !(s.tweet_media.any (fun m => m.file_path == o.file_path))

/-- Reconciliation pass (lines 321-325): delete every `other_works` row
whose file path appears in `pixiv_pages` or in `tweet_media`. -/
def reconcile (s : Store) : Store :=
  { s with other_works := s.other_works.filter (reconPred s) }

/-- Directory skip test of the walk (line 252): any path component that
starts with a dot and is longer than one character. -/
def hiddenRoot (root : String) : Bool :=
  (splitOnChar '/' root.toList).any
    (fun p => strStartsWith (String.mk p) "." && p.length > 1)

/-- Sequential aggregation of all task results against a fixed snapshot
(the `as_completed` loop of lines 268-307, linearized in task order). -/
def passFold (env : Env) (exP exT exO : List String) (acc : Store)
    (tasks : List (String × List String)) : Store :=
  tasks.foldl
    (fun a rt => applyWorker a (scan_worker env rt.1 rt.2 exP exT exO)) acc

/-- One ingestion pass over a directory tree, given as the `os.walk`
output restricted to `(root, files)` pairs: snapshot the per-family ids,
classify each eligible directory against the fixed snapshot, aggregate
with `INSERT OR IGNORE`, then reconcile. -/
def runPass (env : Env) (s : Store) (tree : List (String × List String)) :
    Store :=
  let tasks := tree.filter (fun rt => !rt.2.isEmpty && !hiddenRoot rt.1)
  reconcile (passFold env (s.pixiv_works.map PixivWork.id)
    (s.tweets.map Tweet.id) (s.other_works.map OtherWork.id) s tasks)

/-! ## Like toggle (`toggle_like`, lines 396-404) -/

/-- Point update of the liked flag.  The table is selected by
`"pixiv_works" if type == "pixiv" else "tweets" if type == "tweet" else
"other_works"`, and the SQL `UPDATE ... WHERE id = ?` touches exactly the
rows with a matching id (possibly none), raising no error. -/
def toggle_like (s : Store) (ty idv : String) (liked : Bool) : Store :=
  let val : Nat := if liked then 1 else 0
  if ty = "pixiv" then
    { s with pixiv_works := s.pixiv_works.map (fun w =>
        if w.id = idv then { w with is_liked := val } else w) }
  else if ty = "tweet" then
    { s with tweets := s.tweets.map (fun t =>
        if t.id = idv then { t with is_liked := val } else t) }
  else
    { s with other_works := s.other_works.map (fun o =>
        if o.id = idv then { o with is_liked := val } else o) }

/-! ## Scan flag protocol (lines 22-24, 230-237, 333-337)

The mutex-guarded test-and-set of `run_scan`'s entry and the `finally`
block are modelled as atomic events on the process state.  `running`
counts scan bodies currently executing (a ghost variable: the source has
no such counter, it is the quantity the single-flight property speaks
about). -/

/-- Process-wide state relevant to scanning. -/
structure ScanSys where
  is_scanning : Bool
  scan_status_msg : String
  store : Store
  running : Nat
deriving DecidableEq, Repr

/-- Events of the scan flag protocol: a scan request (the guarded
test-and-set of lines 232-234) and a scan termination with its final
status string (the `finally` of lines 333-337 together with the status
assignment of line 330 or 334). -/
inductive ScanEvent where
  | request : ScanEvent
  | finish : String → ScanEvent
deriving DecidableEq, Repr

/-- Transition function: a request while scanning is a no-op; otherwise
it sets the flag and starts a body.  A termination clears the flag,
records the final status string and retires the body. -/
def scanStep (st : ScanSys) (e : ScanEvent) : ScanSys :=
  match e with
  | .request =>
    if st.is_scanning then st
    else { st with is_scanning := true, running := st.running + 1 }
  | .finish msg =>
    { st with
      is_scanning := false
      scan_status_msg := msg
      running := st.running - 1 }

/-- A run of the protocol from an initial state. -/
def scanRun (init : ScanSys) (evs : List ScanEvent) : ScanSys :=
  evs.foldl scanStep init

/-! ## Stream engine (`get_stream`, lines 407-546) -/

/-- Query parameters of `GET /api/stream` (line 408-418); `none` models
an absent optional parameter. -/
structure StreamQuery where
  limit : Nat
  offset : Nat
  source : String
  q : Option String
  sort : String
  folder : Option String
  filter_type : String
  target_date : Option Int
  direction : String
deriving DecidableEq, Repr

/-- An element of the merged id list: `(type_label, id, sort_key)`. -/
abbrev StreamEntry := String × String × Int

/-- Sort key of a merged entry (`file_mtime`, via `safe_int`; the model
keeps `file_mtime` an integer so the coercion is the identity). -/
def entryKey (x : StreamEntry) : Int := x.2.2

/-- Comparison operator selection of `fetch_ids` (lines 457-468; the
initial assignment of lines 437-438 is dead, being overwritten by every
branch of the `if`/`else` that follows).  Returns `(op, order_s)`. -/
def fetchOpOrd (sort fetch_dir : String) : String × String :=
  if sort = "asc" then
    if fetch_dir = "older" then (">=", "ASC") else ("<", "DESC")
  else
    if fetch_dir = "older" then ("<=", "DESC") else (">", "ASC")

/-- SQL comparison `a op b` for the four operators emitted by
`fetch_ids`. -/
def cmpOp (op : String) (a b : Int) : Bool :=
  if op = "<=" then decide (a ≤ b)
  else if op = ">" then decide (b < a)
  else if op = ">=" then decide (b ≤ a)
  else if op = "<" then decide (a < b)
  else false

/-- Substring test on character lists (used to model SQL `LIKE
'%pat%'`). -/
def containsSub (pat : List Char) : List Char → Bool
  | [] => pat.isEmpty
  | c :: cs => pat.isPrefixOf (c :: cs) || containsSub pat cs

/-- SQL `col LIKE '%pat%'` (case-insensitive for ASCII, as in SQLite). -/
def likeContains (hay pat : String) : Bool :=
  containsSub (toLowerStr pat).toList (toLowerStr hay).toList

/-- Folder filter gate: Python adds the clause only for a truthy folder
parameter different from `"ALL"`. -/
def folderCond (folder : Option String) (fn : String) : Bool :=
  match folder with
  | some f => if f ≠ "" && f ≠ "ALL" then fn == f else true
  | none => true

/-- Free-text gate: the clause is added only for a truthy `q`. -/
def qGate (q : Option String) (test : String → Bool) : Bool :=
  match q with
  | some qs => if qs ≠ "" then test qs else true
  | none => true

/-- Anchor comparison clause, present only when a target was passed. -/
def targetCond (fetch_target : Option Int) (op : String) (mt : Int) : Bool :=
  match fetch_target with
  | some t => cmpOp op mt t
  | none => true

/-- WHERE predicate of `build_query` for `pixiv_works` (lines 472-503). -/
def pixivPred (s : Store) (folder q : Option String) (ft : String)
    (fetch_target : Option Int) (op : String) (w : PixivWork) : Bool :=
  folderCond folder w.folder_name &&
  qGate q (fun qs => likeContains w.title qs || likeContains w.author qs) &&
  (if ft = "liked" then w.is_liked == 1
   else if ft = "text" then false
   else if ft = "video" then
     s.pixiv_pages.any (fun p => p.work_id == w.id && p.media_type == "video")
   else if ft = "image" then
     !(s.pixiv_pages.any (fun p => p.work_id == w.id && p.media_type == "video"))
   else true) &&
  targetCond fetch_target op w.file_mtime

/-- WHERE predicate of `build_query` for `tweets`. -/
def tweetPred (s : Store) (folder q : Option String) (ft : String)
    (fetch_target : Option Int) (op : String) (t : Tweet) : Bool :=
  folderCond folder t.folder_name &&
  qGate q (fun qs => likeContains t.text qs || likeContains t.user_name qs) &&
  (if ft = "liked" then t.is_liked == 1
   else if ft = "text" then
     !(s.tweet_media.any (fun m => m.tweet_id == t.id))
   else if ft = "video" then
     s.tweet_media.any (fun m => m.tweet_id == t.id && m.media_type == "video")
   else if ft = "image" then
     s.tweet_media.any (fun m => m.tweet_id == t.id) &&
     !(s.tweet_media.any (fun m => m.tweet_id == t.id && m.media_type == "video"))
   else true) &&
  targetCond fetch_target op t.file_mtime

/-- WHERE predicate of `build_query` for `other_works`. -/
def otherPred (folder q : Option String) (ft : String)
    (fetch_target : Option Int) (op : String) (o : OtherWork) : Bool :=
  folderCond folder o.folder_name &&
  qGate q (fun qs => likeContains o.filename qs) &&
  (if ft = "liked" then o.is_liked == 1
   else if ft = "text" then false
   else if ft = "video" then o.media_type == "video"
   else if ft = "image" then o.media_type == "image"
   else true) &&
  targetCond fetch_target op o.file_mtime

/-- Ascending order on merged entries (`ORDER BY sort_key ASC`, and the
final `results.sort` with `reverse=False`; both sorts are stable, as are
`List.insertionSort` chains). -/
def entryLeA (a b : StreamEntry) : Prop := entryKey a ≤ entryKey b

/-- Descending order on merged entries (`ORDER BY sort_key DESC` /
`reverse=True`). -/
def entryLeD (a b : StreamEntry) : Prop := entryKey b ≤ entryKey a

instance : DecidableRel entryLeA := fun a b => Int.decLe (entryKey a) (entryKey b)

instance : DecidableRel entryLeD := fun a b => Int.decLe (entryKey b) (entryKey a)

instance : IsTotal StreamEntry entryLeA := ⟨fun _ _ => Int.le_total _ _⟩

instance : IsTotal StreamEntry entryLeD := ⟨fun _ _ => Int.le_total _ _⟩

instance : IsTrans StreamEntry entryLeA := ⟨fun _ _ _ h h' => Int.le_trans h h'⟩

instance : IsTrans StreamEntry entryLeD := ⟨fun _ _ _ h h' => Int.le_trans h' h⟩

/-- Stable sort of merged entries in the direction named by `order_s`. -/
def sortEntries (order_s : String) (l : List StreamEntry) : List StreamEntry :=
  if order_s = "DESC" then List.insertionSort entryLeD l
  else List.insertionSort entryLeA l

/-- Per-family query of `fetch_ids`: filter by the WHERE predicate, tag
with the family label, order by `file_mtime` in the direction of
`order_s`, and keep the first `fetch_limit + offset` rows. -/
def familyRows (rows : List StreamEntry) (order_s : String) (lim : Nat) :
    List StreamEntry :=
  (sortEntries order_s rows).take lim

/-- The `fetch_ids` closure of `get_stream` (lines 434-521): per-family
filtered retrieval, concatenation, a global stable re-sort by the shared
key, and the `[offset : offset + fetch_limit]` slice. -/
def fetchIds (s : Store) (qp : StreamQuery) (fetch_dir : String)
    (fetch_limit : Nat) (fetch_target : Option Int) : List StreamEntry :=
  let oo := fetchOpOrd qp.sort fetch_dir
  let op := oo.1
  let order_s := oo.2
  let lim := fetch_limit + qp.offset
  let pix : List StreamEntry :=
    if qp.source = "all" || qp.source = "pixiv" then
      familyRows ((s.pixiv_works.filter
          (pixivPred s qp.folder qp.q qp.filter_type fetch_target op)).map
        (fun w => ("pixiv", w.id, w.file_mtime))) order_s lim
    else []
  let tws : List StreamEntry :=
    if qp.source = "all" || qp.source = "tweets" then
      familyRows ((s.tweets.filter
          (tweetPred s qp.folder qp.q qp.filter_type fetch_target op)).map
        (fun t => ("tweet", t.id, t.file_mtime))) order_s lim
    else []
  let oth : List StreamEntry :=
    if qp.source = "all" || qp.source = "others" then
      familyRows ((s.other_works.filter
          (otherPred qp.folder qp.q qp.filter_type fetch_target op)).map
        (fun o => ("other", o.id, o.file_mtime))) order_s lim
    else []
  ((sortEntries order_s (pix ++ tws ++ oth)).drop qp.offset).take fetch_limit

/-- Main direction logic of `get_stream` (lines 524-546), producing the
merged `(type, id, sort_key)` page before hydration. -/
def getStreamIds (s : Store) (qp : StreamQuery) : List StreamEntry :=
  if qp.direction = "around" ∧ qp.target_date ≠ none then
    let half := qp.limit / 2
    let newer_list := fetchIds s qp "newer" half qp.target_date
    let older_list := fetchIds s qp "older" half qp.target_date
    if qp.sort = "desc" then newer_list.reverse ++ older_list
    else newer_list ++ older_list.reverse
  else if qp.direction = "newer" then
    let r := fetchIds s qp "newer" qp.limit qp.target_date
    if qp.sort = "desc" then r.reverse else r
  else
    fetchIds s qp "older" qp.limit qp.target_date

end PixivViewer

namespace PixivViewer

/-! ## General helper lemmas -/

theorem mem_of_insertIgnoreBy {α : Type} (key : α → String) {l : List α}
    {x y : α} (h : x ∈ insertIgnoreBy key l y) : x ∈ l ∨ x = y := by
  unfold insertIgnoreBy at h
  split at h
  · exact Or.inl h
  · rcases List.mem_append.mp h with h' | h'
    · exact Or.inl h'
    · exact Or.inr (List.mem_singleton.mp h')

theorem insertIgnoreBy_eq_or {α : Type} (key : α → String) (l : List α)
    (y : α) : insertIgnoreBy key l y = l ∨ insertIgnoreBy key l y = l ++ [y] := by
  unfold insertIgnoreBy
  split
  · exact Or.inl rfl
  · exact Or.inr rfl

theorem key_mem_insertIgnoreBy {α : Type} (key : α → String) (l : List α)
    (y : α) : key y ∈ (insertIgnoreBy key l y).map key := by
  unfold insertIgnoreBy
  split
  · assumption
  · simp

theorem keys_sub_insertIgnoreBy {α : Type} (key : α → String) {l : List α}
    (y : α) {k : String} (h : k ∈ l.map key) :
    k ∈ (insertIgnoreBy key l y).map key := by
  rcases insertIgnoreBy_eq_or key l y with h' | h' <;> rw [h'] <;> simp_all

theorem nodup_insertIgnoreBy {α : Type} (key : α → String) {l : List α}
    (y : α) (h : (l.map key).Nodup) :
    ((insertIgnoreBy key l y).map key).Nodup := by
  unfold insertIgnoreBy
  split
  · exact h
  · rename_i hnot
    rw [List.map_append, List.map_singleton]
    exact List.Nodup.append h (List.nodup_singleton _)
      (fun a ha hb => hnot ((List.mem_singleton.mp hb) ▸ ha))

/-! ## C5: exclusive classification after reconciliation -/

theorem reconcile_pixiv_pages (s : Store) :
    (reconcile s).pixiv_pages = s.pixiv_pages := rfl

theorem reconcile_tweet_media (s : Store) :
    (reconcile s).tweet_media = s.tweet_media := rfl

theorem reconcile_excl (s : Store) (p : String)
    (h : (∃ pg ∈ (reconcile s).pixiv_pages, pg.file_path = p) ∨
      ∃ m ∈ (reconcile s).tweet_media, m.file_path = p) :
    ∀ o ∈ (reconcile s).other_works, o.file_path ≠ p := by
  intro o ho hop
  have hmem := List.mem_filter.mp ho
  have hpred := hmem.2
  simp only [reconPred, Bool.and_eq_true, Bool.not_eq_true',
    List.any_eq_false] at hpred
  rcases h with ⟨pg, hpg, hpgp⟩ | ⟨m, hm, hmp⟩
  · have := hpred.1 pg hpg
    rw [hpgp, hop] at this
    simp at this
  · have := hpred.2 m hm
    rw [hmp, hop] at this
    simp at this

/-- C5: after a scan pass completes its reconciliation step, a file path
appearing in an `ArtworkPage` (`pixiv_pages`) or `PostMedia`
(`tweet_media`) row does not appear in any `UnclassifiedMedia`
(`other_works`) row. -/
theorem exclusive_classification (env : Env) (s : Store)
    (tree : List (String × List String)) (p : String)
    (h : (∃ pg ∈ (runPass env s tree).pixiv_pages, pg.file_path = p) ∨
      ∃ m ∈ (runPass env s tree).tweet_media, m.file_path = p) :
    ∀ o ∈ (runPass env s tree).other_works, o.file_path ≠ p := by
  have : runPass env s tree = reconcile (passFold env
      (s.pixiv_works.map PixivWork.id) (s.tweets.map Tweet.id)
      (s.other_works.map OtherWork.id) s
      (tree.filter (fun rt => !rt.2.isEmpty && !hiddenRoot rt.1))) := rfl
  rw [this] at h ⊢
  exact reconcile_excl _ p h

/-- Closed instantiation of `exclusive_classification` at a concrete
store holding a page with path `x` and a surviving unclassified row with
path `y`: the surviving row's path cannot be `x`. -/
theorem exclusive_classification_witness :
    (OtherWork.file_path ⟨"hy", "y", "d", "y", "image", 0, 0⟩ = "x") = False :=
  eq_false
    (exclusive_classification ⟨fun _ => 0, fun _ => none, fun p => p⟩
      ⟨[], [⟨"w", 0, "x", "image"⟩], [], [],
       [⟨"h", "x", "d", "x", "image", 0, 0⟩,
        ⟨"hy", "y", "d", "y", "image", 0, 0⟩]⟩
      [] "x" (Or.inl ⟨⟨"w", 0, "x", "image"⟩, by decide, rfl⟩)
      ⟨"hy", "y", "d", "y", "image", 0, 0⟩ (by decide))

end PixivViewer

namespace PixivViewer

/-! ## C9: like toggle on unknown families -/

/-- C9: a like-toggle whose family string is neither `pixiv` nor `tweet`
updates the `other_works` table only; all other tables are untouched, and
when no row of `other_works` carries the requested id the whole store is
unchanged (the SQL `UPDATE` silently affects zero rows and no error is
raised — the model is a total function). -/
theorem like_unknown_family_other_table (s : Store) (ty idv : String)
    (liked : Bool) (hp : ty ≠ "pixiv") (ht : ty ≠ "tweet") :
    (toggle_like s ty idv liked).pixiv_works = s.pixiv_works ∧
    (toggle_like s ty idv liked).tweets = s.tweets ∧
    (toggle_like s ty idv liked).pixiv_pages = s.pixiv_pages ∧
    (toggle_like s ty idv liked).tweet_media = s.tweet_media ∧
    (toggle_like s ty idv liked).other_works = s.other_works.map
      (fun o => if o.id = idv
        then { o with is_liked := if liked then 1 else 0 } else o) ∧
    ((∀ o ∈ s.other_works, o.id ≠ idv) → toggle_like s ty idv liked = s) := by
  unfold toggle_like
  rw [if_neg hp, if_neg ht]
  refine ⟨rfl, rfl, rfl, rfl, rfl, fun hno => ?_⟩
  have hmap : s.other_works.map
      (fun o => if o.id = idv
        then { o with is_liked := if liked then 1 else 0 } else o) =
      s.other_works := by
    have := List.map_congr_left (l := s.other_works)
      (f := fun o : OtherWork => if o.id = idv
        then { o with is_liked := if liked then 1 else 0 } else o) (g := id)
      (fun o ho => if_neg (hno o ho))
    simpa using this
  ext <;> simp [hmap]

/-- Closed instantiation of `like_unknown_family_other_table` at the
family string `banana` and an id absent from the store. -/
theorem like_unknown_family_other_table_witness :
    (toggle_like ⟨[], [], [], [], [⟨"a", "f", "d", "p", "image", 1, 0⟩]⟩
      "banana" "zzz" true).pixiv_works = [] ∧
    toggle_like ⟨[], [], [], [], [⟨"a", "f", "d", "p", "image", 1, 0⟩]⟩
      "banana" "zzz" true =
      ⟨[], [], [], [], [⟨"a", "f", "d", "p", "image", 1, 0⟩]⟩ := by
  have h := like_unknown_family_other_table
    ⟨[], [], [], [], [⟨"a", "f", "d", "p", "image", 1, 0⟩]⟩
    "banana" "zzz" true (by decide) (by decide)
  exact ⟨h.1, h.2.2.2.2.2 (by decide)⟩

/-! ## C8: single-flight scanning -/

theorem scanRun_invariant (evs : List ScanEvent) :
    ∀ st : ScanSys, st.running = (if st.is_scanning then 1 else 0) →
      (scanRun st evs).running =
        (if (scanRun st evs).is_scanning then 1 else 0) := by
  induction evs with
  | nil => intro st h; exact h
  | cons e rest ih =>
    intro st h
    have hstep : (scanStep st e).running =
        (if (scanStep st e).is_scanning then 1 else 0) := by
      cases e with
      | request =>
        by_cases hsc : st.is_scanning <;> simp [scanStep, hsc, h]
      | finish msg =>
        by_cases hsc : st.is_scanning <;> simp [scanStep, hsc, h]
    exact ih (scanStep st e) hstep

/-- C8: single-flight scanning.  A scan request while a scan is running
is a complete no-op on the process state (the store included); every
termination event, successful or fatal, clears the scanning flag and
records the final status string; and along any event sequence from the
idle initial state the number of concurrently running scan bodies never
exceeds one. -/
theorem single_flight_scan (st : ScanSys) (msg msg0 : String)
    (store0 : Store) (evs : List ScanEvent)
    (hrun : st.is_scanning = true) :
    scanStep st ScanEvent.request = st ∧
    (scanStep st (ScanEvent.finish msg)).is_scanning = false ∧
    (scanStep st (ScanEvent.finish msg)).scan_status_msg = msg ∧
    (scanRun ⟨false, msg0, store0, 0⟩ evs).running ≤ 1 := by
  refine ⟨?_, rfl, rfl, ?_⟩
  · unfold scanStep
    rw [if_pos hrun]
  · have h := scanRun_invariant evs ⟨false, msg0, store0, 0⟩ (by simp)
    rw [h]
    by_cases hb : (scanRun ⟨false, msg0, store0, 0⟩ evs).is_scanning <;>
      simp [hb]

/-- Closed instantiation of `single_flight_scan`: a request during a
running scan leaves the state untouched, and a request/request/finish
trace never has two bodies running. -/
theorem single_flight_scan_witness :
    scanStep ⟨true, "m", emptyStore, 1⟩ ScanEvent.request =
      ⟨true, "m", emptyStore, 1⟩ ∧
    (scanRun ⟨false, "", emptyStore, 0⟩
      [ScanEvent.request, ScanEvent.request, ScanEvent.finish "done"]).running
      ≤ 1 := by
  have h := single_flight_scan ⟨true, "m", emptyStore, 1⟩ "x" "" emptyStore
    [ScanEvent.request, ScanEvent.request, ScanEvent.finish "done"] rfl
  exact ⟨h.1, h.2.2.2⟩

end PixivViewer

namespace PixivViewer

/-! ## Stream engine lemmas -/

theorem mem_sortEntries {os : String} {l : List StreamEntry}
    {x : StreamEntry} : x ∈ sortEntries os l ↔ x ∈ l := by
  unfold sortEntries
  split <;> exact List.mem_insertionSort _

theorem mem_familyRows {rows : List StreamEntry} {os : String} {lim : Nat}
    {x : StreamEntry} (h : x ∈ familyRows rows os lim) : x ∈ rows :=
  mem_sortEntries.mp (List.mem_of_mem_take h)

/-- Elimination of membership in a `fetch_ids` result: every returned
entry comes from a row of one of the three tables passing that table's
WHERE predicate, tagged with the family label and keyed by the row's
`file_mtime`. -/
theorem mem_fetchIds {s : Store} {qp : StreamQuery} {dir : String}
    {lim : Nat} {tgt : Option Int} {x : StreamEntry}
    (h : x ∈ fetchIds s qp dir lim tgt) :
    (∃ w ∈ s.pixiv_works,
      pixivPred s qp.folder qp.q qp.filter_type tgt (fetchOpOrd qp.sort dir).1 w
        = true ∧ x = ("pixiv", w.id, w.file_mtime)) ∨
    (∃ t ∈ s.tweets,
      tweetPred s qp.folder qp.q qp.filter_type tgt (fetchOpOrd qp.sort dir).1 t
        = true ∧ x = ("tweet", t.id, t.file_mtime)) ∨
    (∃ o ∈ s.other_works,
      otherPred qp.folder qp.q qp.filter_type tgt (fetchOpOrd qp.sort dir).1 o
        = true ∧ x = ("other", o.id, o.file_mtime)) := by
  simp only [fetchIds] at h
  have h1 := mem_sortEntries.mp (List.mem_of_mem_drop (List.mem_of_mem_take h))
  rcases List.mem_append.mp h1 with h2 | h2
  · rcases List.mem_append.mp h2 with h3 | h3
    · left
      split at h3
      · obtain ⟨w, hw, hwx⟩ := List.mem_map.mp (mem_familyRows h3)
        exact ⟨w, (List.mem_filter.mp hw).1, (List.mem_filter.mp hw).2, hwx.symm⟩
      · simp at h3
    · right; left
      split at h3
      · obtain ⟨t, ht, htx⟩ := List.mem_map.mp (mem_familyRows h3)
        exact ⟨t, (List.mem_filter.mp ht).1, (List.mem_filter.mp ht).2, htx.symm⟩
      · simp at h3
  · right; right
    split at h2
    · obtain ⟨o, ho, hox⟩ := List.mem_map.mp (mem_familyRows h2)
      exact ⟨o, (List.mem_filter.mp ho).1, (List.mem_filter.mp ho).2, hox.symm⟩
    · simp at h2

/-- Every entry returned by `fetch_ids` with an anchor satisfies the
selected comparison between its `file_mtime` key and the anchor. -/
theorem fetchIds_key_cmp {s : Store} {qp : StreamQuery} {dir : String}
    {lim : Nat} {t : Int} {x : StreamEntry}
    (h : x ∈ fetchIds s qp dir lim (some t)) :
    cmpOp (fetchOpOrd qp.sort dir).1 (entryKey x) t = true := by
  rcases mem_fetchIds h with ⟨w, _, hp, hx⟩ | ⟨tw, _, hp, hx⟩ | ⟨o, _, hp, hx⟩ <;>
    subst hx <;>
    simp only [pixivPred, tweetPred, otherPred, Bool.and_eq_true] at hp
  · exact hp.2
  · exact hp.2
  · exact hp.2

theorem fetchIds_sorted_desc {s : Store} {qp : StreamQuery} {dir : String}
    {lim : Nat} {tgt : Option Int}
    (hord : (fetchOpOrd qp.sort dir).2 = "DESC") :
    List.Pairwise entryLeD (fetchIds s qp dir lim tgt) := by
  simp only [fetchIds, hord]
  refine List.Pairwise.sublist
    (List.Sublist.trans (List.take_sublist _ _) (List.drop_sublist _ _)) ?_
  simpa [sortEntries] using List.sorted_insertionSort entryLeD _

theorem fetchIds_sorted_asc {s : Store} {qp : StreamQuery} {dir : String}
    {lim : Nat} {tgt : Option Int}
    (hord : (fetchOpOrd qp.sort dir).2 = "ASC") :
    List.Pairwise entryLeA (fetchIds s qp dir lim tgt) := by
  simp only [fetchIds, hord]
  refine List.Pairwise.sublist
    (List.Sublist.trans (List.take_sublist _ _) (List.drop_sublist _ _)) ?_
  have hne : ("ASC" : String) ≠ "DESC" := by decide
  simpa [sortEntries, hne] using List.sorted_insertionSort entryLeA _

theorem fetchIds_length_le {s : Store} {qp : StreamQuery} {dir : String}
    {lim : Nat} {tgt : Option Int} :
    (fetchIds s qp dir lim tgt).length ≤ lim := by
  simp only [fetchIds]
  exact List.length_take_le _ _

theorem cmpOp_le (a b : Int) : cmpOp "<=" a b = decide (a ≤ b) := rfl

theorem cmpOp_gt (a b : Int) : cmpOp ">" a b = decide (b < a) := rfl

theorem cmpOp_ge (a b : Int) : cmpOp ">=" a b = decide (b ≤ a) := rfl

theorem cmpOp_lt (a b : Int) : cmpOp "<" a b = decide (a < b) := rfl

/-! ## C1: the directional comparison table -/

/-- C1: `fetch_ids` selects its comparison operator and per-family SQL
ordering from the pair (sort mode, fetch direction) exactly as the spec's
table states, and the result respects the selected comparison against
the anchor (on `file_mtime` keys) and the selected ordering. -/
theorem stream_directional_table (s : Store) (qp : StreamQuery)
    (lim : Nat) (t : Int) :
    (fetchOpOrd "desc" "older" = ("<=", "DESC") ∧
     fetchOpOrd "desc" "newer" = (">", "ASC") ∧
     fetchOpOrd "asc" "older" = (">=", "ASC") ∧
     fetchOpOrd "asc" "newer" = ("<", "DESC")) ∧
    (qp.sort = "desc" →
      (∀ x ∈ fetchIds s qp "older" lim (some t), entryKey x ≤ t) ∧
      List.Pairwise entryLeD (fetchIds s qp "older" lim (some t)) ∧
      (∀ x ∈ fetchIds s qp "newer" lim (some t), t < entryKey x) ∧
      List.Pairwise entryLeA (fetchIds s qp "newer" lim (some t))) ∧
    (qp.sort = "asc" →
      (∀ x ∈ fetchIds s qp "older" lim (some t), t ≤ entryKey x) ∧
      List.Pairwise entryLeA (fetchIds s qp "older" lim (some t)) ∧
      (∀ x ∈ fetchIds s qp "newer" lim (some t), entryKey x < t) ∧
      List.Pairwise entryLeD (fetchIds s qp "newer" lim (some t))) := by
  refine ⟨⟨rfl, rfl, rfl, rfl⟩, fun hs => ?_, fun hs => ?_⟩
  · refine ⟨fun x hx => ?_, fetchIds_sorted_desc (by rw [hs]; rfl), fun x hx => ?_,
      fetchIds_sorted_asc (by rw [hs]; rfl)⟩
    · have hc := fetchIds_key_cmp hx
      rw [hs] at hc
      rw [show (fetchOpOrd "desc" "older").1 = "<=" from rfl, cmpOp_le] at hc
      exact of_decide_eq_true hc
    · have hc := fetchIds_key_cmp hx
      rw [hs] at hc
      rw [show (fetchOpOrd "desc" "newer").1 = ">" from rfl, cmpOp_gt] at hc
      exact of_decide_eq_true hc
  · refine ⟨fun x hx => ?_, fetchIds_sorted_asc (by rw [hs]; rfl), fun x hx => ?_,
      fetchIds_sorted_desc (by rw [hs]; rfl)⟩
    · have hc := fetchIds_key_cmp hx
      rw [hs] at hc
      rw [show (fetchOpOrd "asc" "older").1 = ">=" from rfl, cmpOp_ge] at hc
      exact of_decide_eq_true hc
    · have hc := fetchIds_key_cmp hx
      rw [hs] at hc
      rw [show (fetchOpOrd "asc" "newer").1 = "<" from rfl, cmpOp_lt] at hc
      exact of_decide_eq_true hc

/-- Closed instantiation of `stream_directional_table` at a concrete
one-row store: newest-first/older yields `<=`/`DESC` and the returned
entry's key is at most the anchor. -/
theorem stream_directional_table_witness :
    fetchOpOrd "desc" "older" = ("<=", "DESC") ∧
    entryKey ("other", "i", (5 : Int)) ≤ 10 := by
  have h := stream_directional_table
    ⟨[], [], [], [], [⟨"i", "f", "d", "p", "image", 5, 0⟩]⟩
    ⟨2, 0, "others", none, "desc", none, "all", some 10, "older"⟩ 2 10
  exact ⟨h.1.1, (h.2.1 rfl).1 ("other", "i", 5) (by decide)⟩

end PixivViewer

namespace PixivViewer

/-! ## Worker provenance lemmas -/

theorem mem_workerMediaFiles {files0 : List String} {f : String} :
    f ∈ workerMediaFiles files0 ↔
      f ∈ files0 ∧ strStartsWith f "." = false ∧ isJsonExt f = false ∧
        isMediaExt f = true := by
  unfold workerMediaFiles workerFiles
  rw [List.mem_filter, List.mem_filter]
  simp [and_assoc]

theorem lookupBucket_mem {buf : List (String × WorkBucket)} {wid : String}
    {b : WorkBucket} (h : lookupBucket buf wid = some b) : (wid, b) ∈ buf := by
  induction buf with
  | nil => simp [lookupBucket] at h
  | cons kv rest ih =>
    obtain ⟨k, v⟩ := kv
    unfold lookupBucket at h
    split at h
    · rename_i hk
      obtain rfl : v = b := Option.some.inj h
      subst hk
      exact List.mem_cons_self _ _
    · exact List.mem_cons_of_mem _ (ih h)

theorem mem_upsertBucket {buf : List (String × WorkBucket)} {wid : String}
    {b1 : WorkBucket} {wb : String × WorkBucket}
    (h : wb ∈ upsertBucket buf wid b1) : wb ∈ buf ∨ wb = (wid, b1) := by
  induction buf with
  | nil =>
    unfold upsertBucket at h
    exact Or.inr (List.mem_singleton.mp h)
  | cons kv rest ih =>
    obtain ⟨k, v⟩ := kv
    unfold upsertBucket at h
    split at h
    · rcases List.mem_cons.mp h with h' | h'
      · exact Or.inr h'
      · exact Or.inl (List.mem_cons_of_mem _ h')
    · rcases List.mem_cons.mp h with h' | h'
      · exact Or.inl (h' ▸ List.mem_cons_self _ _)
      · rcases ih h' with h'' | h''
        · exact Or.inl (List.mem_cons_of_mem _ h'')
        · exact Or.inr h''

/-- Tweet media rows buffered by the tweet sidecar loop all come from a
file of the media pool, with path and kind derived from it. -/
theorem tweetPhase_media_src (env : Env) (root fn : String)
    (exT media_files : List String) (jfs : List String) :
    ∀ st : List TweetEntry × List String,
      (∀ e ∈ st.1, ∀ m ∈ e.media, ∃ f ∈ media_files,
        m.file_path = joinPath root f ∧ m.media_type = mediaKind f) →
      ∀ e ∈ (jfs.foldl (tweetStep env root fn exT media_files) st).1,
        ∀ m ∈ e.media, ∃ f ∈ media_files,
          m.file_path = joinPath root f ∧ m.media_type = mediaKind f := by
  induction jfs with
  | nil => intro st h; exact h
  | cons jf rest ih =>
    intro st h
    rw [List.foldl_cons]
    apply ih
    intro e he m hm
    unfold tweetStep at he
    cases hx : extractTid jf with
    | none => simp only [hx] at he; exact h e he m hm
    | some tid =>
      simp only [hx] at he
      by_cases ht : tid ∈ exT
      · simp only [if_pos ht] at he; exact h e he m hm
      · simp only [if_neg ht] at he
        cases hj : env.loadJson (joinPath root jf) with
        | none => simp only [hj] at he; exact h e he m hm
        | some d =>
          simp only [hj] at he
          rcases List.mem_append.mp he with he' | he'
          · exact h e he' m hm
          · rw [List.mem_singleton] at he'
            subst he'
            obtain ⟨f, hf, hmf⟩ := List.mem_map.mp hm
            refine ⟨f, (List.mem_filter.mp hf).1, ?_, ?_⟩ <;> rw [← hmf]

/-- Pages accumulated in artwork buckets all come from a file of the
media pool, with raw page number, path and kind derived from it, under
the bucket keyed by that file's work id. -/
theorem pixivPhase_pages_src (env : Env) (root fn an aid : String)
    (exP : List String) (pool : List String) (l : List String) :
    ∀ st : List (String × WorkBucket) × List String,
      (∀ wb ∈ st.1, ∀ pg ∈ (Prod.snd wb).pages, ∃ f ∈ pool,
        pg = ((widOf env aid f).2, joinPath root f, mediaKind f) ∧
        wb.1 = (widOf env aid f).1) →
      (∀ f ∈ l, f ∈ pool) →
      ∀ wb ∈ (l.foldl (pixivStep env root fn an aid exP) st).1,
        ∀ pg ∈ (Prod.snd wb).pages, ∃ f ∈ pool,
          pg = ((widOf env aid f).2, joinPath root f, mediaKind f) ∧
          wb.1 = (widOf env aid f).1 := by
  induction l with
  | nil => intro st h _; exact h
  | cons mf rest ih =>
    intro st h hsub
    rw [List.foldl_cons]
    refine ih _ ?_ (fun f hf => hsub f (List.mem_cons_of_mem _ hf))
    intro wb hwb pg hpg
    unfold pixivStep at hwb
    by_cases hu : mf ∈ st.2
    · simp only [if_pos hu] at hwb; exact h wb hwb pg hpg
    · simp only [if_neg hu] at hwb
      by_cases hex : (widOf env aid mf).1 ∈ exP
      · simp only [if_pos hex] at hwb; exact h wb hwb pg hpg
      · simp only [if_neg hex] at hwb
        rcases mem_upsertBucket hwb with hwb' | hwb'
        · exact h wb hwb' pg hpg
        · subst hwb'
          rcases List.mem_append.mp hpg with hpg' | hpg'
          · cases hlk : lookupBucket st.1 (widOf env aid mf).1 with
            | none => simp only [hlk] at hpg'; simp at hpg'
            | some b0 =>
              simp only [hlk] at hpg'
              exact h _ (lookupBucket_mem hlk) pg hpg'
          · rw [List.mem_singleton] at hpg'
            exact ⟨mf, hsub mf (List.mem_cons_self _ _), hpg', rfl⟩

/-- Unclassified rows buffered by the fallback loop all come from a file
of the media pool, and carry exactly the fields built from it. -/
theorem otherPhase_rows_src (env : Env) (root fn : String)
    (exO : List String) (pool : List String) (l : List String)
    (used : List String) :
    ∀ buf : List OtherWork,
      (∀ o ∈ buf, ∃ f ∈ pool,
        o = ⟨env.md5hex (joinPath root f), f, fn, joinPath root f,
          mediaKind f, env.mtime (joinPath root f), 0⟩) →
      (∀ f ∈ l, f ∈ pool) →
      ∀ o ∈ l.foldl (otherStep env root fn exO used) buf, ∃ f ∈ pool,
        o = ⟨env.md5hex (joinPath root f), f, fn, joinPath root f,
          mediaKind f, env.mtime (joinPath root f), 0⟩ := by
  induction l with
  | nil => intro buf h _; exact h
  | cons mf rest ih =>
    intro buf h hsub
    rw [List.foldl_cons]
    refine ih _ ?_ (fun f hf => hsub f (List.mem_cons_of_mem _ hf))
    intro o ho
    unfold otherStep at ho
    by_cases hu : mf ∈ used
    · simp only [if_pos hu] at ho; exact h o ho
    · simp only [if_neg hu] at ho
      by_cases hex : env.md5hex (joinPath root mf) ∈ exO
      · simp only [if_pos hex] at ho; exact h o ho
      · simp only [if_neg hex] at ho
        rcases List.mem_append.mp ho with ho' | ho'
        · exact h o ho'
        · rw [List.mem_singleton] at ho'
          exact ⟨mf, hsub mf (List.mem_cons_self _ _), ho'⟩

theorem mediaKind_video_iff (f : String) :
    mediaKind f = "video" ↔
      (strEndsWith (toLowerStr f) ".mp4" = true ∨
       strEndsWith (toLowerStr f) ".webm" = true) := by
  unfold mediaKind
  split
  · rename_i h
    rw [Bool.or_eq_true] at h
    exact iff_of_true rfl h
  · rename_i h
    rw [Bool.or_eq_true] at h
    exact iff_of_false (by decide) h

theorem mediaKind_cases (f : String) :
    mediaKind f = "video" ∨ mediaKind f = "image" := by
  unfold mediaKind
  split
  · exact Or.inl rfl
  · exact Or.inr rfl

end PixivViewer

namespace PixivViewer

/-! ## C10: media file detection and kind assignment -/

/-- C10: the classifier treats a file as a media file exactly when its
lowercased name ends with one of the six media extensions (and it is not
hidden or a JSON sidecar), and every media row any worker produces — in
all three families — carries a path and kind derived from such a file,
where the kind is `video` iff the lowercased name ends with `.mp4` or
`.webm` and `image` otherwise; no other kind value exists. -/
theorem media_kind_classification (env : Env) (root : String)
    (files0 exP exT exO : List String) :
    (∀ f, f ∈ workerMediaFiles files0 ↔
      f ∈ files0 ∧ strStartsWith f "." = false ∧ isJsonExt f = false ∧
        isMediaExt f = true) ∧
    (∀ f, mediaKind f = "video" ∨ mediaKind f = "image") ∧
    (∀ f, mediaKind f = "video" ↔
      (strEndsWith (toLowerStr f) ".mp4" = true ∨
       strEndsWith (toLowerStr f) ".webm" = true)) ∧
    (∀ e ∈ (scan_worker env root files0 exP exT exO).tweet_buffer,
      ∀ m ∈ e.media, ∃ f ∈ workerMediaFiles files0,
        m.file_path = joinPath root f ∧ m.media_type = mediaKind f) ∧
    (∀ wb ∈ (scan_worker env root files0 exP exT exO).pixiv_buffer,
      ∀ pg ∈ (Prod.snd wb).pages, ∃ f ∈ workerMediaFiles files0,
        pg.2.1 = joinPath root f ∧ pg.2.2 = mediaKind f) ∧
    (∀ o ∈ (scan_worker env root files0 exP exT exO).other_buffer,
      ∃ f ∈ workerMediaFiles files0,
        o.filename = f ∧ o.file_path = joinPath root f ∧
        o.media_type = mediaKind f) := by
  refine ⟨fun f => mem_workerMediaFiles, mediaKind_cases, mediaKind_video_iff,
    ?_, ?_, ?_⟩
  · intro e he m hm
    exact tweetPhase_media_src env root (baseName root) exT
      (workerMediaFiles files0) (workerJsonFiles files0) ([], [])
      (by simp) e he m hm
  · intro wb hwb pg hpg
    simp only [scan_worker] at hwb
    split at hwb
    · obtain ⟨f, hf, heq, -⟩ := pixivPhase_pages_src env root (baseName root)
        (authorNameOf (baseName root)) ((folderMatch (baseName root)).getD "")
        exP (workerMediaFiles files0) (workerMediaFiles files0) _
        (by simp) (fun f hf => hf) wb hwb pg hpg
      exact ⟨f, hf, by rw [heq], by rw [heq]⟩
    · simp at hwb
  · intro o ho
    simp only [scan_worker] at ho
    obtain ⟨f, hf, heq⟩ := otherPhase_rows_src env root (baseName root) exO
      (workerMediaFiles files0) (workerMediaFiles files0) _ []
      (by simp) (fun f hf => hf) o ho
    exact ⟨f, hf, by rw [heq], by rw [heq], by rw [heq]⟩

/-- Closed instantiation of `media_kind_classification`: the worker on a
single `.mp4` file produces an unclassified row of kind `video` sourced
from that file. -/
theorem media_kind_classification_witness :
    ∃ f ∈ workerMediaFiles ["a.mp4"],
      OtherWork.filename ⟨"d/a.mp4", "a.mp4", "d", "d/a.mp4", "video", 0, 0⟩ = f ∧
      OtherWork.file_path ⟨"d/a.mp4", "a.mp4", "d", "d/a.mp4", "video", 0, 0⟩ =
        joinPath "d" f ∧
      OtherWork.media_type ⟨"d/a.mp4", "a.mp4", "d", "d/a.mp4", "video", 0, 0⟩ =
        mediaKind f := by
  have h := media_kind_classification ⟨fun _ => 0, fun _ => none, fun p => p⟩
    "d" ["a.mp4"] [] [] []
  exact h.2.2.2.2.2 ⟨"d/a.mp4", "a.mp4", "d", "d/a.mp4", "video", 0, 0⟩
    (by decide)

end PixivViewer

namespace PixivViewer

/-! ## C4: dense page renumbering -/

/-- C4: the stored page indices of a finalized artwork are the dense
0-based sequence `0..n-1`, assigned along the stable sort of the pages by
raw extracted page number (ties in insertion order); in particular a work
whose files imply raw page numbers 0, 2 and 5 is stored with page
indices exactly 0, 1, 2 along that relative order. -/
theorem dense_page_renumbering (wid : String)
    (pages : List (Nat × String × String)) :
    ((finalizePages wid pages).map PixivPage.page_num =
      List.range pages.length ∧
     ∃ ps, List.Perm ps pages ∧ List.Sorted pageLe ps ∧
       finalizePages wid pages =
         ps.enum.map (fun ip => ⟨wid, ip.1, ip.2.2.1, ip.2.2.2⟩)) ∧
    ((runPass ⟨fun _ => 0, fun _ => none, fun p => p⟩ emptyStore
        [("artist_123",
          ["777777_p2.jpg", "777777_p0.jpg", "777777_p5.jpg"])]).pixiv_pages.map
      PixivPage.page_num = [0, 1, 2] ∧
     (runPass ⟨fun _ => 0, fun _ => none, fun p => p⟩ emptyStore
        [("artist_123",
          ["777777_p2.jpg", "777777_p0.jpg", "777777_p5.jpg"])]).pixiv_pages.map
      PixivPage.file_path =
        ["artist_123/777777_p0.jpg", "artist_123/777777_p2.jpg",
         "artist_123/777777_p5.jpg"]) := by
  refine ⟨⟨?_, List.insertionSort pageLe pages,
    List.perm_insertionSort pageLe pages,
    List.sorted_insertionSort pageLe pages, rfl⟩, by decide, by decide⟩
  unfold finalizePages
  rw [List.map_map]
  have hcomp : (PixivPage.page_num ∘ fun ip : Nat × Nat × String × String =>
      (⟨wid, ip.1, ip.2.2.1, ip.2.2.2⟩ : PixivPage)) = Prod.fst := by
    funext ip
    rfl
  rw [hcomp, List.enum_map_fst, List.length_insertionSort]

end PixivViewer

namespace PixivViewer

/-! ## C2: content filter exactness -/

theorem mem_getStreamIds {s : Store} {qp : StreamQuery} {x : StreamEntry}
    (h : x ∈ getStreamIds s qp) :
    ∃ dir lim, x ∈ fetchIds s qp dir lim qp.target_date := by
  simp only [getStreamIds] at h
  split at h
  · split at h
    · rcases List.mem_append.mp h with h' | h'
      · exact ⟨"newer", qp.limit / 2, List.mem_reverse.mp h'⟩
      · exact ⟨"older", qp.limit / 2, h'⟩
    · rcases List.mem_append.mp h with h' | h'
      · exact ⟨"newer", qp.limit / 2, h'⟩
      · exact ⟨"older", qp.limit / 2, List.mem_reverse.mp h'⟩
  · split at h
    · split at h
      · exact ⟨"newer", qp.limit, List.mem_reverse.mp h⟩
      · exact ⟨"newer", qp.limit, h⟩
    · exact ⟨"older", qp.limit, h⟩

theorem pixivPred_video {s : Store} {folder q : Option String}
    {tgt : Option Int} {op : String} {w : PixivWork}
    (h : pixivPred s folder q "video" tgt op w = true) :
    ∃ p ∈ s.pixiv_pages, p.work_id = w.id ∧ p.media_type = "video" := by
  simp only [pixivPred, Bool.and_eq_true] at h
  obtain ⟨⟨-, hv⟩, -⟩ := h
  simp only [String.reduceEq, reduceIte] at hv
  rw [List.any_eq_true] at hv
  obtain ⟨p, hp, hpb⟩ := hv
  rw [Bool.and_eq_true, beq_iff_eq, beq_iff_eq] at hpb
  exact ⟨p, hp, hpb.1, hpb.2⟩

theorem pixivPred_image {s : Store} {folder q : Option String}
    {tgt : Option Int} {op : String} {w : PixivWork}
    (h : pixivPred s folder q "image" tgt op w = true) :
    ∀ p ∈ s.pixiv_pages, p.work_id = w.id → p.media_type ≠ "video" := by
  simp only [pixivPred, Bool.and_eq_true] at h
  obtain ⟨⟨-, hv⟩, -⟩ := h
  simp only [String.reduceEq, reduceIte] at hv
  rw [Bool.not_eq_true', List.any_eq_false] at hv
  intro p hp hpw hpv
  have := hv p hp
  rw [Bool.and_eq_true, beq_iff_eq, beq_iff_eq] at this
  exact this ⟨hpw, hpv⟩

theorem tweetPred_video {s : Store} {folder q : Option String}
    {tgt : Option Int} {op : String} {t : Tweet}
    (h : tweetPred s folder q "video" tgt op t = true) :
    ∃ m ∈ s.tweet_media, m.tweet_id = t.id ∧ m.media_type = "video" := by
  simp only [tweetPred, Bool.and_eq_true] at h
  obtain ⟨⟨-, hv⟩, -⟩ := h
  simp only [String.reduceEq, reduceIte] at hv
  rw [List.any_eq_true] at hv
  obtain ⟨m, hm, hmb⟩ := hv
  rw [Bool.and_eq_true, beq_iff_eq, beq_iff_eq] at hmb
  exact ⟨m, hm, hmb.1, hmb.2⟩

theorem tweetPred_image {s : Store} {folder q : Option String}
    {tgt : Option Int} {op : String} {t : Tweet}
    (h : tweetPred s folder q "image" tgt op t = true) :
    (∃ m ∈ s.tweet_media, m.tweet_id = t.id) ∧
    ∀ m ∈ s.tweet_media, m.tweet_id = t.id → m.media_type ≠ "video" := by
  simp only [tweetPred, Bool.and_eq_true] at h
  obtain ⟨⟨-, hv⟩, -⟩ := h
  simp only [String.reduceEq, reduceIte] at hv
  rw [Bool.and_eq_true, List.any_eq_true, Bool.not_eq_true',
    List.any_eq_false] at hv
  obtain ⟨⟨m, hm, hmb⟩, hno⟩ := hv
  rw [beq_iff_eq] at hmb
  refine ⟨⟨m, hm, hmb⟩, fun m' hm' hmt hmv => ?_⟩
  have := hno m' hm'
  rw [Bool.and_eq_true, beq_iff_eq, beq_iff_eq] at this
  exact this ⟨hmt, hmv⟩

theorem otherPred_video {folder q : Option String} {tgt : Option Int}
    {op : String} {o : OtherWork}
    (h : otherPred folder q "video" tgt op o = true) :
    o.media_type = "video" := by
  simp only [otherPred, Bool.and_eq_true] at h
  obtain ⟨⟨-, hv⟩, -⟩ := h
  simp only [String.reduceEq, reduceIte] at hv
  rw [beq_iff_eq] at hv
  exact hv

theorem otherPred_image {folder q : Option String} {tgt : Option Int}
    {op : String} {o : OtherWork}
    (h : otherPred folder q "image" tgt op o = true) :
    o.media_type = "image" := by
  simp only [otherPred, Bool.and_eq_true] at h
  obtain ⟨⟨-, hv⟩, -⟩ := h
  simp only [String.reduceEq, reduceIte] at hv
  rw [beq_iff_eq] at hv
  exact hv

/-- C2: filter exactness of the content filters `video` and `image`.
Under a store whose media kinds are only `image`/`video`, whose works all
own at least one page, and whose `other_works` ids are unique (all
guaranteed by the ingestion pipeline): with filter `video` every returned
record has at least one medium of kind video; with filter `image` every
returned record has at least one medium of kind image, and a returned
post (and also a returned artwork) has no video medium. -/
theorem stream_filter_exactness (s : Store) (qp : StreamQuery)
    (hkindp : ∀ p ∈ s.pixiv_pages,
      p.media_type = "image" ∨ p.media_type = "video")
    (hkindm : ∀ m ∈ s.tweet_media,
      m.media_type = "image" ∨ m.media_type = "video")
    (hpages : ∀ w ∈ s.pixiv_works, ∃ p ∈ s.pixiv_pages, p.work_id = w.id)
    (hnodup : (s.other_works.map OtherWork.id).Nodup) :
    (qp.filter_type = "video" →
      ∀ x ∈ getStreamIds s qp,
        (x.1 = "pixiv" →
          ∃ p ∈ s.pixiv_pages, p.work_id = x.2.1 ∧ p.media_type = "video") ∧
        (x.1 = "tweet" →
          ∃ m ∈ s.tweet_media, m.tweet_id = x.2.1 ∧ m.media_type = "video") ∧
        (x.1 = "other" →
          ∀ o ∈ s.other_works, o.id = x.2.1 → o.media_type = "video")) ∧
    (qp.filter_type = "image" →
      ∀ x ∈ getStreamIds s qp,
        (x.1 = "pixiv" →
          (∃ p ∈ s.pixiv_pages, p.work_id = x.2.1 ∧ p.media_type = "image") ∧
          ∀ p ∈ s.pixiv_pages, p.work_id = x.2.1 → p.media_type ≠ "video") ∧
        (x.1 = "tweet" →
          (∃ m ∈ s.tweet_media, m.tweet_id = x.2.1 ∧ m.media_type = "image") ∧
          ∀ m ∈ s.tweet_media, m.tweet_id = x.2.1 → m.media_type ≠ "video") ∧
        (x.1 = "other" →
          ∀ o ∈ s.other_works, o.id = x.2.1 → o.media_type = "image")) := by
  constructor
  · intro hft x hx
    obtain ⟨dir, lim, hfx⟩ := mem_getStreamIds hx
    rcases mem_fetchIds hfx with ⟨w, hw, hp, hxe⟩ | ⟨t, ht, hp, hxe⟩ |
      ⟨o, ho, hp, hxe⟩ <;> rw [hft] at hp <;> subst hxe
    · exact ⟨fun _ => pixivPred_video hp, fun hab => by simp at hab,
        fun hab => by simp at hab⟩
    · exact ⟨fun hab => by simp at hab, fun _ => tweetPred_video hp,
        fun hab => by simp at hab⟩
    · refine ⟨fun hab => by simp at hab, fun hab => by simp at hab,
        fun _ o' ho' hid => ?_⟩
      have : o' = o := List.inj_on_of_nodup_map hnodup ho' ho hid
      rw [this]
      exact otherPred_video hp
  · intro hft x hx
    obtain ⟨dir, lim, hfx⟩ := mem_getStreamIds hx
    rcases mem_fetchIds hfx with ⟨w, hw, hp, hxe⟩ | ⟨t, ht, hp, hxe⟩ |
      ⟨o, ho, hp, hxe⟩ <;> rw [hft] at hp <;> subst hxe
    · refine ⟨fun _ => ?_, fun hab => by simp at hab,
        fun hab => by simp at hab⟩
      have hnov := pixivPred_image hp
      obtain ⟨p0, hp0, hp0w⟩ := hpages w hw
      refine ⟨⟨p0, hp0, hp0w, ?_⟩, hnov⟩
      rcases hkindp p0 hp0 with hk | hk
      · exact hk
      · exact absurd hk (hnov p0 hp0 hp0w)
    · refine ⟨fun hab => by simp at hab, fun _ => ?_,
        fun hab => by simp at hab⟩
      obtain ⟨⟨m0, hm0, hm0t⟩, hnov⟩ := tweetPred_image hp
      refine ⟨⟨m0, hm0, hm0t, ?_⟩, hnov⟩
      rcases hkindm m0 hm0 with hk | hk
      · exact hk
      · exact absurd hk (hnov m0 hm0 hm0t)
    · refine ⟨fun hab => by simp at hab, fun hab => by simp at hab,
        fun _ o' ho' hid => ?_⟩
      have : o' = o := List.inj_on_of_nodup_map hnodup ho' ho hid
      rw [this]
      exact otherPred_image hp

/-- Closed instantiation of `stream_filter_exactness` at a one-video
store with filter `video`: the returned record's single medium is a
video. -/
theorem stream_filter_exactness_witness :
    OtherWork.media_type ⟨"i", "f.mp4", "d", "p", "video", 5, 0⟩ = "video" := by
  have h := stream_filter_exactness
    ⟨[], [], [], [], [⟨"i", "f.mp4", "d", "p", "video", 5, 0⟩]⟩
    ⟨10, 0, "others", none, "desc", none, "video", none, "older"⟩
    (by intro p hp; simp at hp) (by intro m hm; simp at hm)
    (by intro w hw; simp at hw) (by simp)
  exact (h.1 rfl ("other", "i", 5) (by decide)).2.2 rfl
    ⟨"i", "f.mp4", "d", "p", "video", 5, 0⟩ (by decide) rfl

end PixivViewer

namespace PixivViewer

/-! ## C7: the "around" fetch mode -/

/-- C7 counterexample: under oldest-first sort (`sort=asc`), "around" an
anchor of 10 over timestamps 3, 5, 12, 14 with page size 4 returns keys
`[5, 3, 14, 12]` — not in ascending display order, and with the first
half strictly on the older side of the anchor rather than the newer
side. -/
theorem around_mode_counterexample :
    (getStreamIds
      ⟨[], [], [], [],
       [⟨"i3", "f3", "d", "p3", "image", 3, 0⟩,
        ⟨"i5", "f5", "d", "p5", "image", 5, 0⟩,
        ⟨"i12", "f12", "d", "p12", "image", 12, 0⟩,
        ⟨"i14", "f14", "d", "p14", "image", 14, 0⟩]⟩
      ⟨4, 0, "others", none, "asc", none, "all", some 10, "around"⟩).map
        entryKey = [5, 3, 14, 12] ∧
    ¬ List.Pairwise entryLeA (getStreamIds
      ⟨[], [], [], [],
       [⟨"i3", "f3", "d", "p3", "image", 3, 0⟩,
        ⟨"i5", "f5", "d", "p5", "image", 5, 0⟩,
        ⟨"i12", "f12", "d", "p12", "image", 12, 0⟩,
        ⟨"i14", "f14", "d", "p14", "image", 14, 0⟩]⟩
      ⟨4, 0, "others", none, "asc", none, "all", some 10, "around"⟩) := by
  exact ⟨by decide, by decide⟩

/-- C7 corrected: an "around" request with a known anchor returns at most
`limit` items formed of two contiguous halves, each fetched with size
`limit / 2` and internally timestamp-ordered.  Under newest-first sort
the first half is strictly newer than the anchor, the second inclusively
older, and the concatenation is in descending display order.  Under
oldest-first sort the roles are reversed — the first half is strictly
older (descending) and the second inclusively newer (descending after the
code's reversal) — so the combined list is not in ascending display
order. -/
theorem around_mode_amended (s : Store) (qp : StreamQuery) (t : Int)
    (hdir : qp.direction = "around") (htgt : qp.target_date = some t) :
    (getStreamIds s qp).length ≤ qp.limit ∧
    ∃ A B, getStreamIds s qp = A ++ B ∧
      A.length ≤ qp.limit / 2 ∧ B.length ≤ qp.limit / 2 ∧
      (qp.sort = "desc" →
        (∀ x ∈ A, t < entryKey x) ∧ (∀ x ∈ B, entryKey x ≤ t) ∧
        List.Pairwise entryLeD A ∧ List.Pairwise entryLeD B ∧
        List.Pairwise entryLeD (getStreamIds s qp)) ∧
      (qp.sort = "asc" →
        (∀ x ∈ A, entryKey x < t) ∧ (∀ x ∈ B, t ≤ entryKey x) ∧
        List.Pairwise entryLeD A ∧ List.Pairwise entryLeD B) := by
  have hcond : qp.direction = "around" ∧ qp.target_date ≠ none :=
    ⟨hdir, by rw [htgt]; exact Option.some_ne_none t⟩
  have hrep : getStreamIds s qp =
      (if qp.sort = "desc" then
        (fetchIds s qp "newer" (qp.limit / 2) qp.target_date).reverse ++
          fetchIds s qp "older" (qp.limit / 2) qp.target_date
      else
        fetchIds s qp "newer" (qp.limit / 2) qp.target_date ++
          (fetchIds s qp "older" (qp.limit / 2) qp.target_date).reverse) := by
    simp only [getStreamIds, if_pos hcond]
  have hhalf : qp.limit / 2 + qp.limit / 2 ≤ qp.limit := by
    omega
  have hlenN : (fetchIds s qp "newer" (qp.limit / 2) qp.target_date).length ≤
      qp.limit / 2 := fetchIds_length_le
  have hlenO : (fetchIds s qp "older" (qp.limit / 2) qp.target_date).length ≤
      qp.limit / 2 := fetchIds_length_le
  by_cases hs : qp.sort = "desc"
  · rw [hrep, if_pos hs]
    refine ⟨by simp only [List.length_append, List.length_reverse]; omega,
      (fetchIds s qp "newer" (qp.limit / 2) qp.target_date).reverse,
      fetchIds s qp "older" (qp.limit / 2) qp.target_date,
      rfl, by simpa using hlenN, hlenO, fun _ => ?_, fun hs' => ?_⟩
    · have hA : ∀ x ∈ (fetchIds s qp "newer" (qp.limit / 2)
          qp.target_date).reverse, t < entryKey x := by
        intro x hx
        rw [List.mem_reverse] at hx
        rw [htgt] at hx
        have hc := fetchIds_key_cmp hx
        rw [hs] at hc
        rw [show (fetchOpOrd "desc" "newer").1 = ">" from rfl, cmpOp_gt] at hc
        exact of_decide_eq_true hc
      have hB : ∀ x ∈ fetchIds s qp "older" (qp.limit / 2) qp.target_date,
          entryKey x ≤ t := by
        intro x hx
        rw [htgt] at hx
        have hc := fetchIds_key_cmp hx
        rw [hs] at hc
        rw [show (fetchOpOrd "desc" "older").1 = "<=" from rfl, cmpOp_le] at hc
        exact of_decide_eq_true hc
      have hsA : List.Pairwise entryLeD (fetchIds s qp "newer"
          (qp.limit / 2) qp.target_date).reverse := by
        rw [List.pairwise_reverse]
        exact fetchIds_sorted_asc (by rw [hs]; rfl)
      have hsB : List.Pairwise entryLeD (fetchIds s qp "older"
          (qp.limit / 2) qp.target_date) := fetchIds_sorted_desc (by rw [hs]; rfl)
      refine ⟨hA, hB, hsA, hsB, ?_⟩
      rw [List.pairwise_append]
      exact ⟨hsA, hsB, fun a ha b hb =>
        le_trans (hB b hb) (le_of_lt (hA a ha))⟩
    · rw [hs] at hs'
      exact absurd hs' (by decide)
  · have hs' : qp.sort ≠ "desc" := hs
    rw [hrep, if_neg hs']
    refine ⟨by simp only [List.length_append, List.length_reverse]; omega,
      fetchIds s qp "newer" (qp.limit / 2) qp.target_date,
      (fetchIds s qp "older" (qp.limit / 2) qp.target_date).reverse,
      rfl, hlenN, by simpa using hlenO, fun hd => absurd hd hs', fun ha => ?_⟩
    refine ⟨?_, ?_, ?_, ?_⟩
    · intro x hx
      rw [htgt] at hx
      have hc := fetchIds_key_cmp hx
      rw [ha] at hc
      rw [show (fetchOpOrd "asc" "newer").1 = "<" from rfl, cmpOp_lt] at hc
      exact of_decide_eq_true hc
    · intro x hx
      rw [List.mem_reverse, htgt] at hx
      have hc := fetchIds_key_cmp hx
      rw [ha] at hc
      rw [show (fetchOpOrd "asc" "older").1 = ">=" from rfl, cmpOp_ge] at hc
      exact of_decide_eq_true hc
    · exact fetchIds_sorted_desc (by rw [ha]; rfl)
    · rw [List.pairwise_reverse]
      exact fetchIds_sorted_asc (by rw [ha]; rfl)

/-- Closed instantiation of `around_mode_amended` at the counterexample
store under newest-first sort: at most 4 items, in descending order. -/
theorem around_mode_amended_witness :
    (getStreamIds
      ⟨[], [], [], [],
       [⟨"i3", "f3", "d", "p3", "image", 3, 0⟩,
        ⟨"i5", "f5", "d", "p5", "image", 5, 0⟩,
        ⟨"i12", "f12", "d", "p12", "image", 12, 0⟩,
        ⟨"i14", "f14", "d", "p14", "image", 14, 0⟩]⟩
      ⟨4, 0, "others", none, "desc", none, "all", some 10, "around"⟩).length
        ≤ 4 := by
  have h := around_mode_amended
    ⟨[], [], [], [],
     [⟨"i3", "f3", "d", "p3", "image", 3, 0⟩,
      ⟨"i5", "f5", "d", "p5", "image", 5, 0⟩,
      ⟨"i12", "f12", "d", "p12", "image", 12, 0⟩,
      ⟨"i14", "f14", "d", "p14", "image", 14, 0⟩]⟩
    ⟨4, 0, "others", none, "desc", none, "all", some 10, "around"⟩ 10 rfl rfl
  exact h.1

end PixivViewer

namespace PixivViewer

/-! ## C3: post media attachment -/

/-- Condition stated by the original claim, following the spec's words:
the filename contains a run of at least 14 consecutive digits equal to
`tid` (modelled as: `tid` is a digit string of length at least 14
occurring as a substring).  The code instead requires the stricter
`tweetCapture` match, with an underscore before the run and an underscore
or dot after it. -/
def specHasDigitRun (f tid : String) : Bool :=
  14 ≤ tid.toList.length && tid.toList.all isDigitC &&
    containsSub tid.toList f.toList

theorem tweetPhase_buffer_mono (env : Env) (root fn : String)
    (exT media_files : List String) (jfs : List String)
    (st : List TweetEntry × List String) {e : TweetEntry} (he : e ∈ st.1) :
    e ∈ (jfs.foldl (tweetStep env root fn exT media_files) st).1 := by
  induction jfs generalizing st with
  | nil => exact he
  | cons jf rest ih =>
    rw [List.foldl_cons]
    apply ih
    unfold tweetStep
    cases extractTid jf with
    | none => exact he
    | some tid =>
      by_cases ht : tid ∈ exT
      · simp only [if_pos ht]; exact he
      · simp only [if_neg ht]
        cases env.loadJson (joinPath root jf) with
        | none => exact he
        | some d => exact List.mem_append_left _ he

theorem tweetPhase_used_mono (env : Env) (root fn : String)
    (exT media_files : List String) (jfs : List String)
    (st : List TweetEntry × List String) {f : String} (hf : f ∈ st.2) :
    f ∈ (jfs.foldl (tweetStep env root fn exT media_files) st).2 := by
  induction jfs generalizing st with
  | nil => exact hf
  | cons jf rest ih =>
    rw [List.foldl_cons]
    apply ih
    unfold tweetStep
    cases extractTid jf with
    | none => exact hf
    | some tid =>
      by_cases ht : tid ∈ exT
      · simp only [if_pos ht]; exact List.mem_append_left _ hf
      · simp only [if_neg ht]
        cases env.loadJson (joinPath root jf) with
        | none => exact hf
        | some d => exact List.mem_append_left _ hf

theorem tweetPhase_buffer_of_new (env : Env) (root fn : String)
    (exT media_files : List String) (jfs : List String)
    (st : List TweetEntry × List String) {jf tid : String}
    {d : SidecarFields} (hjf : jf ∈ jfs) (hex : extractTid jf = some tid)
    (hnew : tid ∉ exT) (hld : env.loadJson (joinPath root jf) = some d) :
    ∃ e ∈ (jfs.foldl (tweetStep env root fn exT media_files) st).1,
      e.row.id = tid ∧
      e.media = (mediaMapFor media_files tid).map
        (fun mf => TweetMedia.mk tid (joinPath root mf) (mediaKind mf)) := by
  induction jfs generalizing st with
  | nil => cases hjf
  | cons j rest ih =>
    rcases List.mem_cons.mp hjf with hj | hj
    · subst hj
      rw [List.foldl_cons]
      refine ⟨⟨⟨tid, d.ts, d.user, d.text, joinPath root jf,
        d.url.getD ("https://twitter.com/" ++ d.user ++ "/status/" ++ tid),
        d.avatar, fn, env.mtime (joinPath root jf), 0⟩,
        (mediaMapFor media_files tid).map
          (fun mf => TweetMedia.mk tid (joinPath root mf) (mediaKind mf))⟩,
        ?_, rfl, rfl⟩
      apply tweetPhase_buffer_mono
      unfold tweetStep
      rw [hex]
      simp only [if_neg hnew, hld]
      exact List.mem_append_right _ (List.mem_singleton_self _)
    · rw [List.foldl_cons]
      exact ih _ hj

theorem tweetPhase_consumes (env : Env) (root fn : String)
    (exT media_files : List String) (jfs : List String)
    (st : List TweetEntry × List String) {jf tid : String}
    (hjf : jf ∈ jfs) (hex : extractTid jf = some tid)
    (hc : tid ∈ exT ∨ env.loadJson (joinPath root jf) ≠ none) :
    ∀ f ∈ mediaMapFor media_files tid,
      f ∈ (jfs.foldl (tweetStep env root fn exT media_files) st).2 := by
  induction jfs generalizing st with
  | nil => cases hjf
  | cons j rest ih =>
    rcases List.mem_cons.mp hjf with hj | hj
    · subst hj
      intro f hf
      rw [List.foldl_cons]
      apply tweetPhase_used_mono
      unfold tweetStep
      rw [hex]
      by_cases ht : tid ∈ exT
      · simp only [if_pos ht]
        exact List.mem_append_right _ hf
      · simp only [if_neg ht]
        cases hld : env.loadJson (joinPath root jf) with
        | none => exact absurd hld (hc.resolve_left ht)
        | some d => exact List.mem_append_right _ hf
    · intro f hf
      rw [List.foldl_cons]
      exact ih _ hj f hf

/-- C3 corrected: for a post sidecar with extracted id `tid` not in the
snapshot and a parseable body, the worker buffers a post whose attached
media are exactly the media files whose name matches
`_(\d{14,})(_|\.)` with captured run `tid` (kind `video` iff video
extension), and every such file is marked consumed.  Merely containing a
14-digit run equal to `tid` does not suffice (see the counterexample);
the specific name `photo_20230101123456789_1.jpg` does match, capturing
`20230101123456789`. -/
theorem post_media_attachment_amended (env : Env) (root : String)
    (files0 exP exT exO : List String) (jf tid : String) (d : SidecarFields)
    (hjf : jf ∈ workerJsonFiles files0)
    (hex : extractTid jf = some tid)
    (hnew : tid ∉ exT)
    (hld : env.loadJson (joinPath root jf) = some d) :
    (∃ e ∈ (scan_worker env root files0 exP exT exO).tweet_buffer,
      e.row.id = tid ∧
      e.media = (mediaMapFor (workerMediaFiles files0) tid).map
        (fun mf => TweetMedia.mk tid (joinPath root mf) (mediaKind mf))) ∧
    (∀ f ∈ workerMediaFiles files0, tweetCapture f = some tid →
      f ∈ (tweetPhase env root (baseName root) exT (workerMediaFiles files0)
        (workerJsonFiles files0)).2) ∧
    (∀ f, f ∈ mediaMapFor (workerMediaFiles files0) tid ↔
      f ∈ workerMediaFiles files0 ∧ tweetCapture f = some tid) ∧
    tweetCapture "photo_20230101123456789_1.jpg" = some "20230101123456789" := by
  refine ⟨?_, ?_, ?_, by decide⟩
  · exact tweetPhase_buffer_of_new env root (baseName root) exT
      (workerMediaFiles files0) (workerJsonFiles files0) ([], []) hjf hex
      hnew hld
  · intro f hf hcap
    refine tweetPhase_consumes env root (baseName root) exT
      (workerMediaFiles files0) (workerJsonFiles files0) ([], []) hjf hex
      (Or.inr (by rw [hld]; exact Option.some_ne_none d)) f ?_
    unfold mediaMapFor
    rw [List.mem_filter]
    exact ⟨hf, by rw [hcap]; exact beq_self_eq_true _⟩
  · intro f
    unfold mediaMapFor
    rw [List.mem_filter]
    constructor
    · intro ⟨h1, h2⟩
      rw [beq_iff_eq] at h2
      exact ⟨h1, h2⟩
    · intro ⟨h1, h2⟩
      exact ⟨h1, by rw [h2]; exact beq_self_eq_true _⟩

/-- C3 counterexample: the sidecar `20230101123456789.json` yields post
id `20230101123456789`; the media file `20230101123456789.jpg` contains
that very digit run, yet it is not attached (the buffered post has no
media) and instead falls through to the unclassified family, because
`tweet_id_pattern` demands an underscore before the run. -/
theorem post_media_attachment_counterexample :
    extractTid "20230101123456789.json" = some "20230101123456789" ∧
    specHasDigitRun "20230101123456789.jpg" "20230101123456789" = true ∧
    tweetCapture "20230101123456789.jpg" = none ∧
    (scan_worker ⟨fun _ => 0, fun _ => some ⟨0, "u", "", none, ""⟩, fun p => p⟩
      "r" ["20230101123456789.json", "20230101123456789.jpg"]
      [] [] []).tweet_buffer.map (fun e => (e.row.id, e.media)) =
      [("20230101123456789", [])] ∧
    (scan_worker ⟨fun _ => 0, fun _ => some ⟨0, "u", "", none, ""⟩, fun p => p⟩
      "r" ["20230101123456789.json", "20230101123456789.jpg"]
      [] [] []).other_buffer.map OtherWork.filename =
      ["20230101123456789.jpg"] := by
  refine ⟨by decide, by decide, by decide, by decide, by decide⟩

end PixivViewer

namespace PixivViewer

/-- Closed instantiation of `post_media_attachment_amended`: the sidecar
`post_20230101123456789.json` buffers a post to which
`photo_20230101123456789_1.jpg` is attached. -/
theorem post_media_attachment_amended_witness :
    ∃ e ∈ (scan_worker
        ⟨fun _ => 0, fun _ => some ⟨0, "u", "", none, ""⟩, fun p => p⟩ "r"
        ["post_20230101123456789.json", "photo_20230101123456789_1.jpg"]
        [] [] []).tweet_buffer,
      e.row.id = "20230101123456789" ∧
      e.media = (mediaMapFor (workerMediaFiles
          ["post_20230101123456789.json", "photo_20230101123456789_1.jpg"])
          "20230101123456789").map
        (fun mf => TweetMedia.mk "20230101123456789" (joinPath "r" mf)
          (mediaKind mf)) :=
  (post_media_attachment_amended
    ⟨fun _ => 0, fun _ => some ⟨0, "u", "", none, ""⟩, fun p => p⟩ "r"
    ["post_20230101123456789.json", "photo_20230101123456789_1.jpg"]
    [] [] [] "post_20230101123456789.json" "20230101123456789"
    ⟨0, "u", "", none, ""⟩ (by decide) (by decide) (by decide) rfl).1

end PixivViewer

namespace PixivViewer

/-! ## Fold lemmas for the orchestrator (towards C6) -/

theorem genFold_keys_mono {α β : Type} (key : α → String) (g : β → α)
    (rows : List β) :
    ∀ (l : List α) {k : String}, k ∈ l.map key →
      k ∈ (rows.foldl (fun l x => insertIgnoreBy key l (g x)) l).map key := by
  induction rows with
  | nil => intro l k h; exact h
  | cons r rest ih =>
    intro l k h
    rw [List.foldl_cons]
    exact ih _ (keys_sub_insertIgnoreBy key (g r) h)

theorem genFold_inserted_keys {α β : Type} (key : α → String) (g : β → α)
    (rows : List β) :
    ∀ (l : List α) {x : β}, x ∈ rows →
      key (g x) ∈ (rows.foldl (fun l x => insertIgnoreBy key l (g x)) l).map key := by
  induction rows with
  | nil => intro l x h; cases h
  | cons r rest ih =>
    intro l x h
    rw [List.foldl_cons]
    rcases List.mem_cons.mp h with h' | h'
    · subst h'
      exact genFold_keys_mono key g rest _ (key_mem_insertIgnoreBy key l (g x))
    · exact ih _ h'

theorem genFold_extra {α β : Type} (key : α → String) (g : β → α)
    (rows : List β) :
    ∀ l : List α, ∃ extra,
      rows.foldl (fun l x => insertIgnoreBy key l (g x)) l = l ++ extra ∧
      ∀ y ∈ extra, ∃ x ∈ rows, y = g x := by
  induction rows with
  | nil => intro l; exact ⟨[], by simp, by simp⟩
  | cons r rest ih =>
    intro l
    rw [List.foldl_cons]
    rcases insertIgnoreBy_eq_or key l (g r) with he | he <;> rw [he]
    · obtain ⟨extra, h1, h2⟩ := ih l
      exact ⟨extra, h1, fun y hy =>
        (h2 y hy).imp (fun x hx => ⟨List.mem_cons_of_mem _ hx.1, hx.2⟩)⟩
    · obtain ⟨extra, h1, h2⟩ := ih (l ++ [g r])
      refine ⟨[g r] ++ extra, by rw [h1, List.append_assoc], fun y hy => ?_⟩
      rcases List.mem_append.mp hy with hy' | hy'
      · exact ⟨r, List.mem_cons_self _ _, (List.mem_singleton.mp hy').symm ▸ rfl⟩
      · exact ((h2 y hy').imp (fun x hx => ⟨List.mem_cons_of_mem _ hx.1, hx.2⟩))

theorem genFold_nodup {α β : Type} (key : α → String) (g : β → α)
    (rows : List β) :
    ∀ (l : List α), (l.map key).Nodup →
      ((rows.foldl (fun l x => insertIgnoreBy key l (g x)) l).map key).Nodup := by
  induction rows with
  | nil => intro l h; exact h
  | cons r rest ih =>
    intro l h
    rw [List.foldl_cons]
    exact ih _ (nodup_insertIgnoreBy key (g r) h)

theorem tweetInsert_foldl_fields (buf : List TweetEntry) :
    ∀ st : Store,
      (buf.foldl tweetInsert st).tweets =
        buf.foldl (fun tl e => insertIgnoreBy Tweet.id tl e.row) st.tweets ∧
      (buf.foldl tweetInsert st).pixiv_works = st.pixiv_works ∧
      (buf.foldl tweetInsert st).pixiv_pages = st.pixiv_pages ∧
      (buf.foldl tweetInsert st).other_works = st.other_works := by
  induction buf with
  | nil => intro st; exact ⟨rfl, rfl, rfl, rfl⟩
  | cons e rest ih =>
    intro st
    rw [List.foldl_cons, List.foldl_cons]
    exact ih (tweetInsert st e)

theorem pixivInsert_foldl_fields (buf : List (String × WorkBucket)) :
    ∀ st : Store,
      (buf.foldl pixivInsert st).pixiv_works =
        buf.foldl (fun wl wb => insertIgnoreBy PixivWork.id wl (workRow wb))
          st.pixiv_works ∧
      (buf.foldl pixivInsert st).tweets = st.tweets ∧
      (buf.foldl pixivInsert st).tweet_media = st.tweet_media ∧
      (buf.foldl pixivInsert st).other_works = st.other_works := by
  induction buf with
  | nil => intro st; exact ⟨rfl, rfl, rfl, rfl⟩
  | cons wb rest ih =>
    intro st
    rw [List.foldl_cons, List.foldl_cons]
    exact ih (pixivInsert st wb)

theorem otherInsert_foldl_fields (buf : List OtherWork) :
    ∀ st : Store,
      (buf.foldl otherInsert st).other_works =
        buf.foldl (fun ol o => insertIgnoreBy OtherWork.id ol o)
          st.other_works ∧
      (buf.foldl otherInsert st).tweets = st.tweets ∧
      (buf.foldl otherInsert st).tweet_media = st.tweet_media ∧
      (buf.foldl otherInsert st).pixiv_works = st.pixiv_works ∧
      (buf.foldl otherInsert st).pixiv_pages = st.pixiv_pages := by
  induction buf with
  | nil => intro st; exact ⟨rfl, rfl, rfl, rfl, rfl⟩
  | cons o rest ih =>
    intro st
    rw [List.foldl_cons, List.foldl_cons]
    exact ih (otherInsert st o)

/-- Aggregation of a worker with empty tweet and artwork buffers touches
only `other_works`. -/
theorem applyWorker_empty_buffers (acc : Store) (out : WorkerOut)
    (ht : out.tweet_buffer = []) (hp : out.pixiv_buffer = []) :
    applyWorker acc out =
      { acc with
        other_works :=
          out.other_buffer.foldl
            (fun ol o => insertIgnoreBy OtherWork.id ol o)
            acc.other_works } := by
  unfold applyWorker
  rw [ht, hp]
  obtain ⟨h1, h2, h3, h4, h5⟩ := otherInsert_foldl_fields out.other_buffer acc
  ext1 <;> simp_all [otherInsert]

end PixivViewer

namespace PixivViewer

theorem applyWorker_tweets (acc : Store) (out : WorkerOut) :
    (applyWorker acc out).tweets =
      out.tweet_buffer.foldl (fun tl e => insertIgnoreBy Tweet.id tl e.row)
        acc.tweets := by
  unfold applyWorker
  rw [(otherInsert_foldl_fields _ _).2.1, (pixivInsert_foldl_fields _ _).2.1,
    (tweetInsert_foldl_fields _ _).1]

theorem applyWorker_pixiv_works (acc : Store) (out : WorkerOut) :
    (applyWorker acc out).pixiv_works =
      out.pixiv_buffer.foldl
        (fun wl wb => insertIgnoreBy PixivWork.id wl (workRow wb))
        acc.pixiv_works := by
  unfold applyWorker
  rw [(otherInsert_foldl_fields _ _).2.2.2.1, (pixivInsert_foldl_fields _ _).1,
    (tweetInsert_foldl_fields _ _).2.1]

theorem applyWorker_other_works (acc : Store) (out : WorkerOut) :
    (applyWorker acc out).other_works =
      out.other_buffer.foldl (fun ol o => insertIgnoreBy OtherWork.id ol o)
        ((out.pixiv_buffer.foldl pixivInsert
          (out.tweet_buffer.foldl tweetInsert acc)).other_works) := by
  unfold applyWorker
  rw [(otherInsert_foldl_fields _ _).1]

theorem applyWorker_other_works_base (acc : Store) (out : WorkerOut) :
    (applyWorker acc out).other_works =
      out.other_buffer.foldl (fun ol o => insertIgnoreBy OtherWork.id ol o)
        acc.other_works := by
  rw [applyWorker_other_works, (pixivInsert_foldl_fields _ _).2.2.2,
    (tweetInsert_foldl_fields _ _).2.2.2]

theorem passFold_tweets_keys_mono (env : Env) (exP exT exO : List String)
    (tasks : List (String × List String)) :
    ∀ (acc : Store) {k : String}, k ∈ acc.tweets.map Tweet.id →
      k ∈ (passFold env exP exT exO acc tasks).tweets.map Tweet.id := by
  induction tasks with
  | nil => intro acc k h; exact h
  | cons rt rest ih =>
    intro acc k h
    unfold passFold
    rw [List.foldl_cons]
    refine ih _ ?_
    rw [applyWorker_tweets]
    exact genFold_keys_mono Tweet.id (fun e : TweetEntry => e.row) _ _ h

theorem passFold_pixiv_keys_mono (env : Env) (exP exT exO : List String)
    (tasks : List (String × List String)) :
    ∀ (acc : Store) {k : String}, k ∈ acc.pixiv_works.map PixivWork.id →
      k ∈ (passFold env exP exT exO acc tasks).pixiv_works.map PixivWork.id := by
  induction tasks with
  | nil => intro acc k h; exact h
  | cons rt rest ih =>
    intro acc k h
    unfold passFold
    rw [List.foldl_cons]
    refine ih _ ?_
    rw [applyWorker_pixiv_works]
    exact genFold_keys_mono PixivWork.id workRow _ _ h

theorem passFold_other_keys_mono (env : Env) (exP exT exO : List String)
    (tasks : List (String × List String)) :
    ∀ (acc : Store) {k : String}, k ∈ acc.other_works.map OtherWork.id →
      k ∈ (passFold env exP exT exO acc tasks).other_works.map OtherWork.id := by
  induction tasks with
  | nil => intro acc k h; exact h
  | cons rt rest ih =>
    intro acc k h
    unfold passFold
    rw [List.foldl_cons]
    refine ih _ ?_
    rw [applyWorker_other_works_base]
    exact genFold_keys_mono OtherWork.id (fun o : OtherWork => o) _ _ h

theorem passFold_tweet_buffered (env : Env) (exP exT exO : List String)
    (tasks : List (String × List String)) :
    ∀ (acc : Store) {rt : String × List String}, rt ∈ tasks →
      ∀ {e : TweetEntry},
        e ∈ (scan_worker env rt.1 rt.2 exP exT exO).tweet_buffer →
        e.row.id ∈ (passFold env exP exT exO acc tasks).tweets.map Tweet.id := by
  induction tasks with
  | nil => intro acc rt h; cases h
  | cons t0 rest ih =>
    intro acc rt hrt e he
    unfold passFold
    rw [List.foldl_cons]
    rcases List.mem_cons.mp hrt with h0 | h0
    · subst h0
      refine passFold_tweets_keys_mono env exP exT exO rest _ ?_
      rw [applyWorker_tweets]
      exact genFold_inserted_keys Tweet.id (fun e : TweetEntry => e.row) _ _ he
    · exact ih _ h0 he

theorem passFold_pixiv_buffered (env : Env) (exP exT exO : List String)
    (tasks : List (String × List String)) :
    ∀ (acc : Store) {rt : String × List String}, rt ∈ tasks →
      ∀ {wb : String × WorkBucket},
        wb ∈ (scan_worker env rt.1 rt.2 exP exT exO).pixiv_buffer →
        wb.1 ∈ (passFold env exP exT exO acc tasks).pixiv_works.map
          PixivWork.id := by
  induction tasks with
  | nil => intro acc rt h; cases h
  | cons t0 rest ih =>
    intro acc rt hrt wb hwb
    unfold passFold
    rw [List.foldl_cons]
    rcases List.mem_cons.mp hrt with h0 | h0
    · subst h0
      refine passFold_pixiv_keys_mono env exP exT exO rest _ ?_
      rw [applyWorker_pixiv_works]
      exact genFold_inserted_keys PixivWork.id workRow _ _ hwb
    · exact ih _ h0 hwb

theorem passFold_other_buffered (env : Env) (exP exT exO : List String)
    (tasks : List (String × List String)) :
    ∀ (acc : Store) {rt : String × List String}, rt ∈ tasks →
      ∀ {o : OtherWork},
        o ∈ (scan_worker env rt.1 rt.2 exP exT exO).other_buffer →
        o.id ∈ (passFold env exP exT exO acc tasks).other_works.map
          OtherWork.id := by
  induction tasks with
  | nil => intro acc rt h; cases h
  | cons t0 rest ih =>
    intro acc rt hrt o ho
    unfold passFold
    rw [List.foldl_cons]
    rcases List.mem_cons.mp hrt with h0 | h0
    · subst h0
      refine passFold_other_keys_mono env exP exT exO rest _ ?_
      rw [applyWorker_other_works_base]
      exact genFold_inserted_keys OtherWork.id (fun o : OtherWork => o) _ _ ho
    · exact ih _ h0 ho

theorem passFold_others_sub (env : Env) (exP exT exO : List String)
    (tasks : List (String × List String)) :
    ∀ (acc : Store) {R : OtherWork}, R ∈ acc.other_works →
      R ∈ (passFold env exP exT exO acc tasks).other_works := by
  induction tasks with
  | nil => intro acc R h; exact h
  | cons t0 rest ih =>
    intro acc R h
    unfold passFold
    rw [List.foldl_cons]
    refine ih _ ?_
    rw [applyWorker_other_works_base]
    obtain ⟨extra, heq, -⟩ := genFold_extra OtherWork.id (fun o : OtherWork => o)
      (scan_worker env t0.1 t0.2 exP exT exO).other_buffer acc.other_works
    rw [heq]
    exact List.mem_append_left _ h

/-- Every row a worker buffers for `other_works` has its id equal to the
md5 digest of its own path. -/
theorem scan_worker_other_wf (env : Env) (root : String)
    (files0 exP exT exO : List String) :
    ∀ o ∈ (scan_worker env root files0 exP exT exO).other_buffer,
      o.id = env.md5hex o.file_path := by
  intro o ho
  simp only [scan_worker] at ho
  obtain ⟨f, -, heq⟩ := otherPhase_rows_src env root (baseName root) exO
    (workerMediaFiles files0) (workerMediaFiles files0) _ []
    (by simp) (fun f hf => hf) o ho
  rw [heq]

theorem passFold_others_wf (env : Env) (exP exT exO : List String)
    (tasks : List (String × List String)) :
    ∀ (acc : Store),
      (∀ o ∈ acc.other_works, o.id = env.md5hex o.file_path) →
      ∀ o ∈ (passFold env exP exT exO acc tasks).other_works,
        o.id = env.md5hex o.file_path := by
  induction tasks with
  | nil => intro acc h; exact h
  | cons t0 rest ih =>
    intro acc h
    unfold passFold
    rw [List.foldl_cons]
    refine ih _ ?_
    rw [applyWorker_other_works_base]
    obtain ⟨extra, heq, hsrc⟩ := genFold_extra OtherWork.id
      (fun o : OtherWork => o)
      (scan_worker env t0.1 t0.2 exP exT exO).other_buffer acc.other_works
    rw [heq]
    intro o ho
    rcases List.mem_append.mp ho with ho' | ho'
    · exact h o ho'
    · obtain ⟨x, hx, hxo⟩ := hsrc o ho'
      rw [hxo]
      exact scan_worker_other_wf env t0.1 t0.2 exP exT exO x hx

theorem passFold_nodup (env : Env) (exP exT exO : List String)
    (tasks : List (String × List String)) :
    ∀ (acc : Store),
      ((acc.pixiv_works.map PixivWork.id).Nodup →
        ((passFold env exP exT exO acc tasks).pixiv_works.map
          PixivWork.id).Nodup) ∧
      ((acc.tweets.map Tweet.id).Nodup →
        ((passFold env exP exT exO acc tasks).tweets.map Tweet.id).Nodup) ∧
      ((acc.other_works.map OtherWork.id).Nodup →
        ((passFold env exP exT exO acc tasks).other_works.map
          OtherWork.id).Nodup) := by
  induction tasks with
  | nil => intro acc; exact ⟨fun h => h, fun h => h, fun h => h⟩
  | cons t0 rest ih =>
    intro acc
    refine ⟨fun h => ?_, fun h => ?_, fun h => ?_⟩ <;>
      (unfold passFold; rw [List.foldl_cons])
    · exact (ih _).1 (by
        rw [applyWorker_pixiv_works]
        exact genFold_nodup PixivWork.id workRow _ _ h)
    · exact (ih _).2.1 (by
        rw [applyWorker_tweets]
        exact genFold_nodup Tweet.id (fun e : TweetEntry => e.row) _ _ h)
    · exact (ih _).2.2 (by
        rw [applyWorker_other_works_base]
        exact genFold_nodup OtherWork.id (fun o : OtherWork => o) _ _ h)

end PixivViewer

namespace PixivViewer

/-! ## Worker-level lemmas for rescan idempotence (C6) -/

theorem tweetPhase_used_elim (env : Env) (root fn : String)
    (exT media_files : List String) (jfs : List String) :
    ∀ (st : List TweetEntry × List String) {f : String},
      f ∈ (jfs.foldl (tweetStep env root fn exT media_files) st).2 →
      f ∈ st.2 ∨ ∃ jf ∈ jfs, ∃ tid, extractTid jf = some tid ∧
        f ∈ mediaMapFor media_files tid ∧
        (tid ∈ exT ∨ env.loadJson (joinPath root jf) ≠ none) := by
  induction jfs with
  | nil => intro st f h; exact Or.inl h
  | cons jf rest ih =>
    intro st f h
    rw [List.foldl_cons] at h
    have hstep := ih _ h
    have hpush : ∀ jf' ∈ rest, (∃ tid, extractTid jf' = some tid ∧
        f ∈ mediaMapFor media_files tid ∧
        (tid ∈ exT ∨ env.loadJson (joinPath root jf') ≠ none)) →
        ∃ jf' ∈ jf :: rest, ∃ tid, extractTid jf' = some tid ∧
          f ∈ mediaMapFor media_files tid ∧
          (tid ∈ exT ∨ env.loadJson (joinPath root jf') ≠ none) :=
      fun jf' hj hx => ⟨jf', List.mem_cons_of_mem _ hj, hx⟩
    rcases hstep with hst | ⟨jf', hj, hx⟩
    · unfold tweetStep at hst
      cases hx : extractTid jf with
      | none => rw [hx] at hst; exact Or.inl hst
      | some tid =>
        rw [hx] at hst
        by_cases ht : tid ∈ exT
        · simp only [if_pos ht] at hst
          rcases List.mem_append.mp hst with h' | h'
          · exact Or.inl h'
          · exact Or.inr ⟨jf, List.mem_cons_self _ _, tid, hx, h', Or.inl ht⟩
        · simp only [if_neg ht] at hst
          cases hj : env.loadJson (joinPath root jf) with
          | none => rw [hj] at hst; exact Or.inl hst
          | some d =>
            rw [hj] at hst
            simp only at hst
            rcases List.mem_append.mp hst with h' | h'
            · exact Or.inl h'
            · exact Or.inr ⟨jf, List.mem_cons_self _ _, tid, hx, h',
                Or.inr (by rw [hj]; exact Option.some_ne_none d)⟩
    · exact Or.inr (hpush jf' hj hx)

/-- Consumption in the tweet phase is monotone in the existing-tweet
snapshot. -/
theorem tweetPhase_used_sub (env : Env) (root fn : String)
    {exT exT' : List String} (hsub : ∀ t, t ∈ exT → t ∈ exT')
    (media_files jfs : List String) {f : String}
    (h : f ∈ (tweetPhase env root fn exT media_files jfs).2) :
    f ∈ (tweetPhase env root fn exT' media_files jfs).2 := by
  rcases tweetPhase_used_elim env root fn exT media_files jfs ([], []) h with
    h' | ⟨jf, hj, tid, hex, hmm, hcond⟩
  · cases h'
  · exact tweetPhase_consumes env root fn exT' media_files jfs ([], []) hj hex
      (hcond.imp_left (hsub tid)) f hmm

theorem tweetPhase_buffer_empty (env : Env) (root fn : String)
    (E media_files : List String) (jfs : List String)
    (h : ∀ jf ∈ jfs, ∀ tid, extractTid jf = some tid →
      env.loadJson (joinPath root jf) ≠ none → tid ∈ E) :
    ∀ (st : List TweetEntry × List String), st.1 = [] →
      (jfs.foldl (tweetStep env root fn E media_files) st).1 = [] := by
  induction jfs with
  | nil => intro st hst; exact hst
  | cons jf rest ih =>
    intro st hst
    rw [List.foldl_cons]
    have hrest : ∀ jf' ∈ rest, ∀ tid, extractTid jf' = some tid →
        env.loadJson (joinPath root jf') ≠ none → tid ∈ E :=
      fun jf' hj => h jf' (List.mem_cons_of_mem _ hj)
    refine ih hrest _ ?_
    unfold tweetStep
    cases hx : extractTid jf with
    | none => exact hst
    | some tid =>
      by_cases ht : tid ∈ E
      · simp only [if_pos ht]; exact hst
      · simp only [if_neg ht]
        cases hj : env.loadJson (joinPath root jf) with
        | none => exact hst
        | some d =>
          exact absurd (h jf (List.mem_cons_self _ _) tid hx
            (by rw [hj]; exact Option.some_ne_none d)) ht

theorem upsertBucket_keys_mono {buf : List (String × WorkBucket)}
    {wid k : String} (b : WorkBucket) (h : k ∈ buf.map Prod.fst) :
    k ∈ (upsertBucket buf wid b).map Prod.fst := by
  induction buf with
  | nil => cases h
  | cons kv rest ih =>
    obtain ⟨k', v'⟩ := kv
    unfold upsertBucket
    split
    · rename_i hk
      subst hk
      rcases List.mem_cons.mp h with h' | h'
      · simp [h']
      · simp only [List.map_cons, List.mem_cons]
        exact Or.inr h'
    · rcases List.mem_cons.mp h with h' | h'
      · simp only [List.map_cons, List.mem_cons]
        exact Or.inl h'
      · simp only [List.map_cons, List.mem_cons]
        exact Or.inr (ih h')

theorem upsertBucket_key_self (buf : List (String × WorkBucket))
    (wid : String) (b : WorkBucket) :
    wid ∈ (upsertBucket buf wid b).map Prod.fst := by
  induction buf with
  | nil => simp [upsertBucket]
  | cons kv rest ih =>
    obtain ⟨k', v'⟩ := kv
    unfold upsertBucket
    split
    · simp
    · simp only [List.map_cons, List.mem_cons]
      exact Or.inr ih

theorem pixivPhase_keys_mono (env : Env) (root fn an aid : String)
    (exP : List String) (l : List String) :
    ∀ (st : List (String × WorkBucket) × List String) {k : String},
      k ∈ st.1.map Prod.fst →
      k ∈ (l.foldl (pixivStep env root fn an aid exP) st).1.map Prod.fst := by
  induction l with
  | nil => intro st k h; exact h
  | cons mf rest ih =>
    intro st k h
    rw [List.foldl_cons]
    refine ih _ ?_
    unfold pixivStep
    by_cases hu : mf ∈ st.2
    · simp only [if_pos hu]; exact h
    · simp only [if_neg hu]
      by_cases hex : (widOf env aid mf).1 ∈ exP
      · simp only [if_pos hex]; exact h
      · simp only [if_neg hex]
        exact upsertBucket_keys_mono _ h

theorem pixivPhase_used_mono (env : Env) (root fn an aid : String)
    (exP : List String) (l : List String) :
    ∀ (st : List (String × WorkBucket) × List String) {f : String},
      f ∈ st.2 →
      f ∈ (l.foldl (pixivStep env root fn an aid exP) st).2 := by
  induction l with
  | nil => intro st f h; exact h
  | cons mf rest ih =>
    intro st f h
    rw [List.foldl_cons]
    refine ih _ ?_
    unfold pixivStep
    by_cases hu : mf ∈ st.2
    · simp only [if_pos hu]; exact h
    · simp only [if_neg hu]
      by_cases hex : (widOf env aid mf).1 ∈ exP
      · simp only [if_pos hex]; exact List.mem_append_left _ h
      · simp only [if_neg hex]; exact List.mem_append_left _ h

theorem pixivPhase_covers (env : Env) (root fn an aid : String)
    (exP : List String) (l : List String) :
    ∀ (st : List (String × WorkBucket) × List String) {f : String},
      f ∈ l →
      f ∈ (l.foldl (pixivStep env root fn an aid exP) st).2 := by
  induction l with
  | nil => intro st f h; cases h
  | cons mf rest ih =>
    intro st f h
    rw [List.foldl_cons]
    rcases List.mem_cons.mp h with h' | h'
    · subst h'
      apply pixivPhase_used_mono
      unfold pixivStep
      by_cases hu : f ∈ st.2
      · simp only [if_pos hu]; exact hu
      · simp only [if_neg hu]
        by_cases hex : (widOf env aid f).1 ∈ exP
        · simp only [if_pos hex]
          exact List.mem_append_right _ (List.mem_singleton_self _)
        · simp only [if_neg hex]
          exact List.mem_append_right _ (List.mem_singleton_self _)
    · exact ih _ h'

theorem pixivPhase_processed (env : Env) (root fn an aid : String)
    (exP : List String) (l : List String) :
    ∀ (st : List (String × WorkBucket) × List String) {f : String},
      f ∈ l → f ∉ st.2 →
      (widOf env aid f).1 ∈ exP ∨
      (widOf env aid f).1 ∈
        (l.foldl (pixivStep env root fn an aid exP) st).1.map Prod.fst := by
  induction l with
  | nil => intro st f h; cases h
  | cons mf rest ih =>
    intro st f hf hnu
    rw [List.foldl_cons]
    by_cases hfm : f = mf
    · subst hfm
      by_cases hex : (widOf env aid f).1 ∈ exP
      · exact Or.inl hex
      · refine Or.inr ?_
        have hkey : (widOf env aid f).1 ∈
            ((pixivStep env root fn an aid exP st f).1.map Prod.fst) := by
          unfold pixivStep
          simp only [if_neg hnu, if_neg hex]
          exact upsertBucket_key_self _ _ _
        exact pixivPhase_keys_mono env root fn an aid exP rest _ hkey
    · rcases List.mem_cons.mp hf with h' | h'
      · exact absurd h' hfm
      · refine ih _ h' ?_
        unfold pixivStep
        by_cases hu : mf ∈ st.2
        · simp only [if_pos hu]; exact hnu
        · simp only [if_neg hu]
          by_cases hex : (widOf env aid mf).1 ∈ exP
          · simp only [if_pos hex]
            intro hmem
            rcases List.mem_append.mp hmem with hm | hm
            · exact hnu hm
            · exact hfm (List.mem_singleton.mp hm)
          · simp only [if_neg hex]
            intro hmem
            rcases List.mem_append.mp hmem with hm | hm
            · exact hnu hm
            · exact hfm (List.mem_singleton.mp hm)

theorem pixivPhase_buffer_empty (env : Env) (root fn an aid : String)
    (E : List String) (l : List String) :
    ∀ (st : List (String × WorkBucket) × List String), st.1 = [] →
      (∀ mf ∈ l, mf ∉ st.2 → (widOf env aid mf).1 ∈ E) →
      (l.foldl (pixivStep env root fn an aid E) st).1 = [] := by
  induction l with
  | nil => intro st hst _; exact hst
  | cons mf rest ih =>
    intro st hst hall
    rw [List.foldl_cons]
    by_cases hu : mf ∈ st.2
    · refine ih _ ?_ ?_
      · unfold pixivStep
        simp only [if_pos hu]
        exact hst
      · intro mf' hm' hnu'
        unfold pixivStep at hnu'
        simp only [if_pos hu] at hnu'
        exact hall mf' (List.mem_cons_of_mem _ hm') hnu'
    · have hex : (widOf env aid mf).1 ∈ E :=
        hall mf (List.mem_cons_self _ _) hu
      refine ih _ ?_ ?_
      · unfold pixivStep
        simp only [if_neg hu, if_pos hex]
        exact hst
      · intro mf' hm' hnu'
        unfold pixivStep at hnu'
        simp only [if_neg hu, if_pos hex] at hnu'
        refine hall mf' (List.mem_cons_of_mem _ hm') (fun hmem => ?_)
        exact hnu' (List.mem_append_left _ hmem)

theorem otherPhase_buffer_mono (env : Env) (root fn : String)
    (exO : List String) (l : List String) (used : List String) :
    ∀ (buf : List OtherWork) {o : OtherWork}, o ∈ buf →
      o ∈ l.foldl (otherStep env root fn exO used) buf := by
  induction l with
  | nil => intro buf o h; exact h
  | cons mf rest ih =>
    intro buf o h
    rw [List.foldl_cons]
    refine ih _ ?_
    unfold otherStep
    by_cases hu : mf ∈ used
    · simp only [if_pos hu]; exact h
    · simp only [if_neg hu]
      by_cases hex : env.md5hex (joinPath root mf) ∈ exO
      · simp only [if_pos hex]; exact h
      · simp only [if_neg hex]; exact List.mem_append_left _ h

theorem otherPhase_skip_or_buffered (env : Env) (root fn : String)
    (exO : List String) (l : List String) (used : List String) :
    ∀ (buf : List OtherWork) {f : String}, f ∈ l → f ∉ used →
      env.md5hex (joinPath root f) ∈ exO ∨
      ∃ o ∈ l.foldl (otherStep env root fn exO used) buf,
        o.id = env.md5hex (joinPath root f) := by
  induction l with
  | nil => intro buf f h; cases h
  | cons mf rest ih =>
    intro buf f hf hnu
    rw [List.foldl_cons]
    by_cases hfm : f = mf
    · subst hfm
      by_cases hex : env.md5hex (joinPath root f) ∈ exO
      · exact Or.inl hex
      · refine Or.inr ⟨⟨env.md5hex (joinPath root f), f, fn, joinPath root f,
          mediaKind f, env.mtime (joinPath root f), 0⟩, ?_, rfl⟩
        apply otherPhase_buffer_mono
        unfold otherStep
        simp only [if_neg hnu, if_neg hex]
        exact List.mem_append_right _ (List.mem_singleton_self _)
    · rcases List.mem_cons.mp hf with h' | h'
      · exact absurd h' hfm
      · exact ih _ h' hnu

theorem otherPhase_rows_elim (env : Env) (root fn : String)
    (exO : List String) (pool : List String) (used : List String)
    (l : List String) :
    ∀ (buf : List OtherWork),
      (∀ o ∈ buf, ∃ f ∈ pool, f ∉ used ∧
        o = ⟨env.md5hex (joinPath root f), f, fn, joinPath root f,
          mediaKind f, env.mtime (joinPath root f), 0⟩ ∧
        env.md5hex (joinPath root f) ∉ exO) →
      (∀ f ∈ l, f ∈ pool) →
      ∀ o ∈ l.foldl (otherStep env root fn exO used) buf,
        ∃ f ∈ pool, f ∉ used ∧
          o = ⟨env.md5hex (joinPath root f), f, fn, joinPath root f,
            mediaKind f, env.mtime (joinPath root f), 0⟩ ∧
          env.md5hex (joinPath root f) ∉ exO := by
  induction l with
  | nil => intro buf h _ o ho; exact h o ho
  | cons mf rest ih =>
    intro buf h hsub o ho
    rw [List.foldl_cons] at ho
    refine ih _ ?_ (fun f hf => hsub f (List.mem_cons_of_mem _ hf)) o ho
    intro o' ho'
    unfold otherStep at ho'
    by_cases hu : mf ∈ used
    · simp only [if_pos hu] at ho'
      exact h o' ho'
    · simp only [if_neg hu] at ho'
      by_cases hex : env.md5hex (joinPath root mf) ∈ exO
      · simp only [if_pos hex] at ho'
        exact h o' ho'
      · simp only [if_neg hex] at ho'
        rcases List.mem_append.mp ho' with h' | h'
        · exact h o' h'
        · rw [List.mem_singleton] at h'
          exact ⟨mf, hsub mf (List.mem_cons_self _ _), hu, h', hex⟩

end PixivViewer

namespace PixivViewer

/-- Behaviour of a worker whose snapshots already contain everything it
could classify: no tweet and no artwork is buffered, and every buffered
unclassified row stems from a media file not consumed by the tweet
phase, in a non-artwork folder, with an id absent from the snapshot. -/
theorem scan_worker_pass2 (env : Env) (root : String)
    (files exP' exT' exO' : List String)
    (hT : ∀ jf ∈ workerJsonFiles files, ∀ tid, extractTid jf = some tid →
      env.loadJson (joinPath root jf) ≠ none → tid ∈ exT')
    (hP : (folderMatch (baseName root)).isSome = true →
      ∀ mf ∈ workerMediaFiles files,
        mf ∉ (tweetPhase env root (baseName root) exT'
          (workerMediaFiles files) (workerJsonFiles files)).2 →
        (widOf env ((folderMatch (baseName root)).getD "") mf).1 ∈ exP') :
    (scan_worker env root files exP' exT' exO').tweet_buffer = [] ∧
    (scan_worker env root files exP' exT' exO').pixiv_buffer = [] ∧
    ∀ o ∈ (scan_worker env root files exP' exT' exO').other_buffer,
      ∃ f ∈ workerMediaFiles files,
        f ∉ (tweetPhase env root (baseName root) exT'
          (workerMediaFiles files) (workerJsonFiles files)).2 ∧
        (folderMatch (baseName root)).isSome = false ∧
        o = ⟨env.md5hex (joinPath root f), f, baseName root, joinPath root f,
          mediaKind f, env.mtime (joinPath root f), 0⟩ ∧
        env.md5hex (joinPath root f) ∉ exO' := by
  have htw : (tweetPhase env root (baseName root) exT'
      (workerMediaFiles files) (workerJsonFiles files)).1 = [] :=
    tweetPhase_buffer_empty env root (baseName root) exT'
      (workerMediaFiles files) (workerJsonFiles files) hT ([], []) rfl
  refine ⟨htw, ?_, ?_⟩
  · simp only [scan_worker]
    split
    · rename_i hps
      exact pixivPhase_buffer_empty env root (baseName root)
        (authorNameOf (baseName root)) ((folderMatch (baseName root)).getD "")
        exP' (workerMediaFiles files) _ rfl (hP hps)
    · rfl
  · simp only [scan_worker]
    split
    · rename_i hps
      intro o ho
      exfalso
      obtain ⟨f, hf, hnu, -⟩ := otherPhase_rows_elim env root (baseName root)
        exO' (workerMediaFiles files)
        (pixivPhase env root (baseName root) (authorNameOf (baseName root))
          ((folderMatch (baseName root)).getD "") exP'
          (workerMediaFiles files)
          (tweetPhase env root (baseName root) exT' (workerMediaFiles files)
            (workerJsonFiles files)).2).2
        (workerMediaFiles files) [] (by simp) (fun f hf => hf) o ho
      exact hnu (pixivPhase_covers env root (baseName root)
        (authorNameOf (baseName root)) ((folderMatch (baseName root)).getD "")
        exP' (workerMediaFiles files) _ hf)
    · rename_i hps
      intro o ho
      obtain ⟨f, hf, hnu, heq, hex⟩ := otherPhase_rows_elim env root
        (baseName root) exO' (workerMediaFiles files)
        (tweetPhase env root (baseName root) exT' (workerMediaFiles files)
          (workerJsonFiles files)).2
        (workerMediaFiles files) [] (by simp) (fun f hf => hf) o ho
      exact ⟨f, hf, hnu, Bool.not_eq_true _ ▸ Bool.of_not_eq_true hps, heq, hex⟩

end PixivViewer

namespace PixivViewer

/-- Eligible tasks of a walk (line 249-253). -/
def passTasks (tree : List (String × List String)) :
    List (String × List String) :=
  tree.filter (fun rt => !rt.2.isEmpty && !hiddenRoot rt.1)

/-- The store after the write phase of one pass, before reconciliation. -/
def passOne (env : Env) (s : Store) (tree : List (String × List String)) :
    Store :=
  passFold env (s.pixiv_works.map PixivWork.id) (s.tweets.map Tweet.id)
    (s.other_works.map OtherWork.id) s (passTasks tree)

theorem runPass_eq (env : Env) (s : Store)
    (tree : List (String × List String)) :
    runPass env s tree = reconcile (passOne env s tree) := rfl

theorem scan_worker_tweet_buffer_eq (env : Env) (root : String)
    (files exP exT exO : List String) :
    (scan_worker env root files exP exT exO).tweet_buffer =
      (tweetPhase env root (baseName root) exT (workerMediaFiles files)
        (workerJsonFiles files)).1 := rfl

theorem scan_worker_pixiv_buffer_eq (env : Env) (root : String)
    (files exP exT exO : List String)
    (hps : (folderMatch (baseName root)).isSome = true) :
    (scan_worker env root files exP exT exO).pixiv_buffer =
      (pixivPhase env root (baseName root) (authorNameOf (baseName root))
        ((folderMatch (baseName root)).getD "") exP (workerMediaFiles files)
        (tweetPhase env root (baseName root) exT (workerMediaFiles files)
          (workerJsonFiles files)).2).1 := by
  simp only [scan_worker, hps, if_true]

theorem scan_worker_other_buffer_eq_nopix (env : Env) (root : String)
    (files exP exT exO : List String)
    (hps : (folderMatch (baseName root)).isSome = false) :
    (scan_worker env root files exP exT exO).other_buffer =
      otherPhase env root (baseName root) exO (workerMediaFiles files)
        (tweetPhase env root (baseName root) exT (workerMediaFiles files)
          (workerJsonFiles files)).2 := by
  simp only [scan_worker, hps, if_false, Bool.false_eq_true]

/-- Pass-1 fact for tweets: every parseable sidecar id of an eligible
task is present in the tweets table after the write phase. -/
theorem passOne_tweet_ids (env : Env) (s : Store)
    (tree : List (String × List String)) :
    ∀ rt ∈ passTasks tree, ∀ jf ∈ workerJsonFiles rt.2, ∀ tid,
      extractTid jf = some tid →
      env.loadJson (joinPath rt.1 jf) ≠ none →
      tid ∈ (passOne env s tree).tweets.map Tweet.id := by
  intro rt hrt jf hjf tid hex hld
  by_cases ht : tid ∈ s.tweets.map Tweet.id
  · exact passFold_tweets_keys_mono env _ _ _ _ _ ht
  · cases hj : env.loadJson (joinPath rt.1 jf) with
    | none => exact absurd hj hld
    | some d =>
      obtain ⟨e, he, hid, -⟩ := tweetPhase_buffer_of_new env rt.1
        (baseName rt.1) (s.tweets.map Tweet.id) (workerMediaFiles rt.2)
        (workerJsonFiles rt.2) ([], []) hjf hex ht hj
      have he' : e ∈ (scan_worker env rt.1 rt.2 (s.pixiv_works.map PixivWork.id)
          (s.tweets.map Tweet.id) (s.other_works.map OtherWork.id)).tweet_buffer := by
        rw [scan_worker_tweet_buffer_eq]
        exact he
      have := passFold_tweet_buffered env (s.pixiv_works.map PixivWork.id)
        (s.tweets.map Tweet.id) (s.other_works.map OtherWork.id)
        (passTasks tree) s hrt he'
      rw [hid] at this
      exact this

/-- Pass-1 fact for artworks: in an artwork folder, every media file not
consumed by the tweet phase has its work id present in the works table
after the write phase. -/
theorem passOne_pixiv_ids (env : Env) (s : Store)
    (tree : List (String × List String)) :
    ∀ rt ∈ passTasks tree,
      (folderMatch (baseName rt.1)).isSome = true →
      ∀ mf ∈ workerMediaFiles rt.2,
        mf ∉ (tweetPhase env rt.1 (baseName rt.1) (s.tweets.map Tweet.id)
          (workerMediaFiles rt.2) (workerJsonFiles rt.2)).2 →
        (widOf env ((folderMatch (baseName rt.1)).getD "") mf).1 ∈
          (passOne env s tree).pixiv_works.map PixivWork.id := by
  intro rt hrt hps mf hmf hnu
  rcases pixivPhase_processed env rt.1 (baseName rt.1)
      (authorNameOf (baseName rt.1)) ((folderMatch (baseName rt.1)).getD "")
      (s.pixiv_works.map PixivWork.id) (workerMediaFiles rt.2)
      (([], (tweetPhase env rt.1 (baseName rt.1) (s.tweets.map Tweet.id)
        (workerMediaFiles rt.2) (workerJsonFiles rt.2)).2)) hmf hnu with
    hex | hkey
  · exact passFold_pixiv_keys_mono env _ _ _ _ _ hex
  · obtain ⟨wb, hwb, hwid⟩ := List.mem_map.mp hkey
    have hwb' : wb ∈ (scan_worker env rt.1 rt.2 (s.pixiv_works.map PixivWork.id)
        (s.tweets.map Tweet.id) (s.other_works.map OtherWork.id)).pixiv_buffer := by
      rw [scan_worker_pixiv_buffer_eq env rt.1 rt.2 _ _ _ hps]
      exact hwb
    have := passFold_pixiv_buffered env (s.pixiv_works.map PixivWork.id)
      (s.tweets.map Tweet.id) (s.other_works.map OtherWork.id)
      (passTasks tree) s hrt hwb'
    rw [hwid] at this
    exact this

/-- Pass-1 fact for unclassified files: in a non-artwork folder, every
media file not consumed by the tweet phase has its path digest present
as an id in `other_works` after the write phase. -/
theorem passOne_other_ids (env : Env) (s : Store)
    (tree : List (String × List String)) :
    ∀ rt ∈ passTasks tree,
      (folderMatch (baseName rt.1)).isSome = false →
      ∀ f ∈ workerMediaFiles rt.2,
        f ∉ (tweetPhase env rt.1 (baseName rt.1) (s.tweets.map Tweet.id)
          (workerMediaFiles rt.2) (workerJsonFiles rt.2)).2 →
        env.md5hex (joinPath rt.1 f) ∈
          (passOne env s tree).other_works.map OtherWork.id := by
  intro rt hrt hps f hf hnu
  rcases otherPhase_skip_or_buffered env rt.1 (baseName rt.1)
      (s.other_works.map OtherWork.id) (workerMediaFiles rt.2)
      (tweetPhase env rt.1 (baseName rt.1) (s.tweets.map Tweet.id)
        (workerMediaFiles rt.2) (workerJsonFiles rt.2)).2 [] hf hnu with
    hex | ⟨o, ho, hid⟩
  · exact passFold_other_keys_mono env _ _ _ _ _ hex
  · have ho' : o ∈ (scan_worker env rt.1 rt.2 (s.pixiv_works.map PixivWork.id)
        (s.tweets.map Tweet.id) (s.other_works.map OtherWork.id)).other_buffer := by
      rw [scan_worker_other_buffer_eq_nopix env rt.1 rt.2 _ _ _ hps]
      exact ho
    have := passFold_other_buffered env (s.pixiv_works.map PixivWork.id)
      (s.tweets.map Tweet.id) (s.other_works.map OtherWork.id)
      (passTasks tree) s hrt ho'
    rw [hid] at this
    exact this

end PixivViewer

namespace PixivViewer

theorem reconPred_congr {s1 s2 : Store}
    (hp : s1.pixiv_pages = s2.pixiv_pages)
    (hm : s1.tweet_media = s2.tweet_media) :
    reconPred s1 = reconPred s2 := by
  unfold reconPred
  rw [hp, hm]

theorem reconPred_path {s : Store} {o o' : OtherWork}
    (h : o.file_path = o'.file_path) : reconPred s o = reconPred s o' := by
  unfold reconPred
  rw [h]

/-- A fold of workers whose tweet and artwork buffers are empty only
appends dead rows (w.r.t. a reference predicate) to `other_works`. -/
theorem passFold_pass2_inv (env : Env) (exP' exT' exO' : List String)
    (tasks : List (String × List String)) (sref : Store)
    (hworkers : ∀ rt ∈ tasks,
      (scan_worker env rt.1 rt.2 exP' exT' exO').tweet_buffer = [] ∧
      (scan_worker env rt.1 rt.2 exP' exT' exO').pixiv_buffer = [] ∧
      ∀ o ∈ (scan_worker env rt.1 rt.2 exP' exT' exO').other_buffer,
        reconPred sref o = false) :
    ∀ acc : Store, ∃ extra,
      passFold env exP' exT' exO' acc tasks =
        { acc with other_works := acc.other_works ++ extra } ∧
      ∀ o ∈ extra, reconPred sref o = false := by
  induction tasks with
  | nil =>
    intro acc
    refine ⟨[], ?_, by simp⟩
    unfold passFold
    rw [List.foldl_nil, List.append_nil]
  | cons rt rest ih =>
    intro acc
    obtain ⟨ht, hp, ho⟩ := hworkers rt (List.mem_cons_self _ _)
    have hrest : ∀ rt' ∈ rest,
        (scan_worker env rt'.1 rt'.2 exP' exT' exO').tweet_buffer = [] ∧
        (scan_worker env rt'.1 rt'.2 exP' exT' exO').pixiv_buffer = [] ∧
        ∀ o ∈ (scan_worker env rt'.1 rt'.2 exP' exT' exO').other_buffer,
          reconPred sref o = false :=
      fun rt' h => hworkers rt' (List.mem_cons_of_mem _ h)
    have hstep := applyWorker_empty_buffers acc
      (scan_worker env rt.1 rt.2 exP' exT' exO') ht hp
    obtain ⟨extra0, heq0, hsrc0⟩ := genFold_extra OtherWork.id
      (fun o : OtherWork => o)
      (scan_worker env rt.1 rt.2 exP' exT' exO').other_buffer acc.other_works
    obtain ⟨extra1, heq1, hdead1⟩ := ih hrest
      { acc with other_works := acc.other_works ++ extra0 }
    refine ⟨extra0 ++ extra1, ?_, ?_⟩
    · unfold passFold
      rw [List.foldl_cons]
      have : applyWorker acc (scan_worker env rt.1 rt.2 exP' exT' exO') =
          { acc with other_works := acc.other_works ++ extra0 } := by
        rw [hstep, heq0]
      rw [this]
      unfold passFold at heq1
      rw [heq1]
      simp [List.append_assoc]
    · intro o hoe
      rcases List.mem_append.mp hoe with h' | h'
      · obtain ⟨x, hx, hxo⟩ := hsrc0 o h'
        rw [hxo]
        exact ho x hx
      · exact hdead1 o h'

end PixivViewer

namespace PixivViewer

/-- On a rescan of an unchanged tree, every worker runs against
snapshots that already contain everything it can classify: tweet and
artwork buffers are empty and all buffered unclassified rows are dead
under the reconciliation predicate of the first pass. -/
theorem pass2_workers (env : Env) (s : Store)
    (tree : List (String × List String))
    (hwf : ∀ o ∈ s.other_works, o.id = env.md5hex o.file_path)
    (hinj : Function.Injective env.md5hex) :
    ∀ rt ∈ passTasks tree,
      (scan_worker env rt.1 rt.2
        ((runPass env s tree).pixiv_works.map PixivWork.id)
        ((runPass env s tree).tweets.map Tweet.id)
        ((runPass env s tree).other_works.map OtherWork.id)).tweet_buffer
        = [] ∧
      (scan_worker env rt.1 rt.2
        ((runPass env s tree).pixiv_works.map PixivWork.id)
        ((runPass env s tree).tweets.map Tweet.id)
        ((runPass env s tree).other_works.map OtherWork.id)).pixiv_buffer
        = [] ∧
      ∀ o ∈ (scan_worker env rt.1 rt.2
        ((runPass env s tree).pixiv_works.map PixivWork.id)
        ((runPass env s tree).tweets.map Tweet.id)
        ((runPass env s tree).other_works.map OtherWork.id)).other_buffer,
        reconPred (passOne env s tree) o = false := by
  intro rt hrt
  have hsub : ∀ t ∈ s.tweets.map Tweet.id,
      t ∈ (runPass env s tree).tweets.map Tweet.id :=
    fun t ht => passFold_tweets_keys_mono env
      (s.pixiv_works.map PixivWork.id) (s.tweets.map Tweet.id)
      (s.other_works.map OtherWork.id) (passTasks tree) s ht
  have hT : ∀ jf ∈ workerJsonFiles rt.2, ∀ tid, extractTid jf = some tid →
      env.loadJson (joinPath rt.1 jf) ≠ none →
      tid ∈ (runPass env s tree).tweets.map Tweet.id :=
    fun jf hjf tid hex hld => passOne_tweet_ids env s tree rt hrt jf hjf tid
      hex hld
  have hP : (folderMatch (baseName rt.1)).isSome = true →
      ∀ mf ∈ workerMediaFiles rt.2,
        mf ∉ (tweetPhase env rt.1 (baseName rt.1)
          ((runPass env s tree).tweets.map Tweet.id)
          (workerMediaFiles rt.2) (workerJsonFiles rt.2)).2 →
        (widOf env ((folderMatch (baseName rt.1)).getD "") mf).1 ∈
          (runPass env s tree).pixiv_works.map PixivWork.id := by
    intro hps mf hmf hnu2
    refine passOne_pixiv_ids env s tree rt hrt hps mf hmf (fun hmem => ?_)
    exact hnu2 (tweetPhase_used_sub env rt.1 (baseName rt.1) hsub
      (workerMediaFiles rt.2) (workerJsonFiles rt.2) hmem)
  obtain ⟨hte, hpe, hrows⟩ := scan_worker_pass2 env rt.1 rt.2
    ((runPass env s tree).pixiv_works.map PixivWork.id)
    ((runPass env s tree).tweets.map Tweet.id)
    ((runPass env s tree).other_works.map OtherWork.id) hT hP
  refine ⟨hte, hpe, ?_⟩
  intro o ho
  obtain ⟨f, hf, hnu2, hnopix, heqo, hid⟩ := hrows o ho
  have hnu1 : f ∉ (tweetPhase env rt.1 (baseName rt.1)
      (s.tweets.map Tweet.id) (workerMediaFiles rt.2)
      (workerJsonFiles rt.2)).2 :=
    fun hmem => hnu2 (tweetPhase_used_sub env rt.1 (baseName rt.1) hsub
      (workerMediaFiles rt.2) (workerJsonFiles rt.2) hmem)
  have hidmem : env.md5hex (joinPath rt.1 f) ∈
      (passOne env s tree).other_works.map OtherWork.id :=
    passOne_other_ids env s tree rt hrt hnopix f hf hnu1
  obtain ⟨R, hR, hRid⟩ := List.mem_map.mp hidmem
  have hRwf : R.id = env.md5hex R.file_path :=
    passFold_others_wf env (s.pixiv_works.map PixivWork.id)
      (s.tweets.map Tweet.id) (s.other_works.map OtherWork.id)
      (passTasks tree) s hwf R hR
  have hRpath : R.file_path = joinPath rt.1 f := by
    apply hinj
    rw [← hRwf, hRid]
  have hpredR : reconPred (passOne env s tree) R = false := by
    by_contra hcon
    have htrue : reconPred (passOne env s tree) R = true :=
      eq_true_of_ne_false hcon
    have hRin : R ∈ (runPass env s tree).other_works :=
      List.mem_filter.mpr ⟨hR, htrue⟩
    have : R.id ∈ (runPass env s tree).other_works.map OtherWork.id :=
      List.mem_map.mpr ⟨R, hRin, rfl⟩
    rw [hRid] at this
    exact hid this
  have hopath : o.file_path = R.file_path := by
    rw [heqo, hRpath]
  rw [reconPred_path hopath]
  exact hpredR

end PixivViewer

namespace PixivViewer

/-- C6: rescanning an unchanged tree is idempotent.  Under the store
invariants the pipeline maintains (`other_works` ids are digests of their
own paths, the digest is injective, per-family ids are unique), a second
`run_scan` over the same tree leaves the store exactly as the first one
did — in particular all per-family record counts are unchanged — and the
store after a pass has no duplicate identifiers in any family and keeps
every unclassified id equal to the digest of its absolute path. -/
theorem idempotent_rescan (env : Env) (s : Store)
    (tree : List (String × List String))
    (hwf : ∀ o ∈ s.other_works, o.id = env.md5hex o.file_path)
    (hinj : Function.Injective env.md5hex)
    (hnp : (s.pixiv_works.map PixivWork.id).Nodup)
    (hnt : (s.tweets.map Tweet.id).Nodup)
    (hno : (s.other_works.map OtherWork.id).Nodup) :
    runPass env (runPass env s tree) tree = runPass env s tree ∧
    ((runPass env s tree).pixiv_works.map PixivWork.id).Nodup ∧
    ((runPass env s tree).tweets.map Tweet.id).Nodup ∧
    ((runPass env s tree).other_works.map OtherWork.id).Nodup ∧
    (∀ o ∈ (runPass env s tree).other_works,
      o.id = env.md5hex o.file_path) := by
  have hworkers := pass2_workers env s tree hwf hinj
  obtain ⟨extra, hfold, hdead⟩ := passFold_pass2_inv env
    ((runPass env s tree).pixiv_works.map PixivWork.id)
    ((runPass env s tree).tweets.map Tweet.id)
    ((runPass env s tree).other_works.map OtherWork.id)
    (passTasks tree) (passOne env s tree) hworkers (runPass env s tree)
  have hstep1 : runPass env (runPass env s tree) tree =
      reconcile (passOne env (runPass env s tree) tree) := rfl
  have hstep2 : passOne env (runPass env s tree) tree =
      { runPass env s tree with
        other_works := (runPass env s tree).other_works ++ extra } := hfold
  have hpredeq : reconPred { runPass env s tree with
      other_works := (runPass env s tree).other_works ++ extra } =
      reconPred (passOne env s tree) := reconPred_congr rfl rfl
  have hself : ((runPass env s tree).other_works).filter
      (reconPred (passOne env s tree)) = (runPass env s tree).other_works := by
    refine List.filter_eq_self.mpr (fun a ha => ?_)
    exact (List.mem_filter.mp ha).2
  have hnilextra : extra.filter (reconPred (passOne env s tree)) = [] := by
    refine List.filter_eq_nil_iff.mpr (fun a ha => ?_)
    rw [hdead a ha]
    exact Bool.false_ne_true
  refine ⟨?_, ?_, ?_, ?_, ?_⟩
  · rw [hstep1, hstep2]
    unfold reconcile
    rw [hpredeq]
    have hfil : ((runPass env s tree).other_works ++ extra).filter
        (reconPred (passOne env s tree)) = (runPass env s tree).other_works := by
      rw [List.filter_append, hself, hnilextra, List.append_nil]
    ext1
    · rfl
    · rfl
    · rfl
    · rfl
    · exact hfil
  · exact (passFold_nodup env _ _ _ (passTasks tree) s).1 hnp
  · exact (passFold_nodup env _ _ _ (passTasks tree) s).2.1 hnt
  · have hn1 : ((passOne env s tree).other_works.map OtherWork.id).Nodup :=
      (passFold_nodup env _ _ _ (passTasks tree) s).2.2 hno
    exact List.Nodup.sublist
      (List.Sublist.map OtherWork.id (List.filter_sublist _)) hn1
  · intro o ho
    exact passFold_others_wf env _ _ _ (passTasks tree) s hwf o
      (List.mem_of_mem_filter ho)

/-- Closed instantiation of `idempotent_rescan`: two passes over a
two-file directory starting from the empty store coincide. -/
theorem idempotent_rescan_witness :
    runPass ⟨fun _ => 0, fun _ => none, fun p => p⟩
      (runPass ⟨fun _ => 0, fun _ => none, fun p => p⟩ emptyStore
        [("d", ["a.jpg", "b.mp4"])]) [("d", ["a.jpg", "b.mp4"])] =
      runPass ⟨fun _ => 0, fun _ => none, fun p => p⟩ emptyStore
        [("d", ["a.jpg", "b.mp4"])] ∧
    ((runPass ⟨fun _ => 0, fun _ => none, fun p => p⟩ emptyStore
      [("d", ["a.jpg", "b.mp4"])]).other_works.map OtherWork.id).Nodup := by
  have h := idempotent_rescan ⟨fun _ => 0, fun _ => none, fun p => p⟩
    emptyStore [("d", ["a.jpg", "b.mp4"])]
    (by intro o ho; simp [emptyStore] at ho)
    (fun a b hab => hab) (by simp [emptyStore]) (by simp [emptyStore])
    (by simp [emptyStore])
  exact ⟨h.1, h.2.2.2.1⟩

end PixivViewer
